import Mathlib

/-!
Verification development for the kairos working-hours tracker.

The Go sources are embedded shallowly:

* calendar timestamps (`time.Time` values in the single configured
  location, truncated to whole seconds as the storage layer does when it
  formats times with `"2006-01-02T15:04:05"`) become the structures
  `Date` and `Timestamp` below; instants are compared and subtracted
  through `Timestamp.epochSecs`, the count of seconds since the civil
  epoch, which coincides with Go's comparison and subtraction of
  instants for valid calendar fields;
* the sqlite ledger (`internal/storage`, the revision carrying
  `normalizeRange`/`populateSessionTimes`) becomes pure functions over a
  `List Session`, the rows in insertion order;
* the tracker (`internal/tracker/tracker.go`, the location-aware
  revision) and the cobra commands (`clockinCmd`, `clockoutCmd`,
  `editCmd`, `deleteCmd`) become functions and a step relation `step`
  over a `TrackState`;
* the archiver (`internal/archive/archive.go`) becomes functions over an
  `ArchState`; the fallible filesystem and database calls are driven by
  an `IoOracle` recording which of them succeed.

Durations (Go `float64` hours) are modelled as rationals: every duration
the code builds is `(whole seconds)/3600 - breakMinutes/60`, and on the
concrete inputs of the theorems below the Go double computations are
exact, so the rational model agrees with the binary one.
-/

namespace Kairos

/-! ## Calendar -/

/-- Leap-year rule of the proleptic Gregorian calendar, as implemented by
Go's `time` package. -/
def isLeap (y : Nat) : Bool :=
  (y % 4 == 0 && y % 100 != 0) || y % 400 == 0

/-- Number of days of month `m` (1-12) of year `y`. -/
def daysInMonth (y m : Nat) : Nat :=
  if m = 2 then (if isLeap y then 29 else 28)
  else if m = 4 ∨ m = 6 ∨ m = 9 ∨ m = 11 then 30
  else 31

/-- Days of year `y` strictly before month `m`. -/
def daysBeforeMonth (y : Nat) : Nat → Nat
  | 0 => 0
  | 1 => 0
  | m + 2 => daysBeforeMonth y (m + 1) + daysInMonth y (m + 1)

/-- Days from the civil epoch (0001-01-01) to the start of year `y`. -/
def daysBeforeYear (y : Nat) : Nat :=
  365 * (y - 1) + (y - 1) / 4 - (y - 1) / 100 + (y - 1) / 400

/-- A calendar day in the configured location. -/
structure Date where
  year : Nat
  month : Nat
  day : Nat
deriving DecidableEq

/-- Valid calendar fields (every date the program manipulates satisfies
this; the bound `2 ≤ year` keeps day subtraction inside the calendar). -/
def Date.Valid (d : Date) : Prop :=
  2 ≤ d.year ∧ 1 ≤ d.month ∧ d.month ≤ 12 ∧ 1 ≤ d.day ∧ d.day ≤ daysInMonth d.year d.month

instance (d : Date) : Decidable d.Valid := by
  unfold Date.Valid; infer_instance

/-- Days from the civil epoch to `d`. -/
def dateDays (d : Date) : Nat :=
  daysBeforeYear d.year + daysBeforeMonth d.year d.month + (d.day - 1)

/-- The next calendar day (`AddDate(0, 0, 1)`, and the day reached by
`Add(24 * time.Hour)`). -/
def Date.next (d : Date) : Date :=
  if d.day < daysInMonth d.year d.month then ⟨d.year, d.month, d.day + 1⟩
  else if d.month < 12 then ⟨d.year, d.month + 1, 1⟩
  else ⟨d.year + 1, 1, 1⟩

/-- The previous calendar day (`AddDate(0, 0, -1)`). -/
def Date.prev (d : Date) : Date :=
  if 1 < d.day then ⟨d.year, d.month, d.day - 1⟩
  else if 1 < d.month then ⟨d.year, d.month - 1, daysInMonth d.year (d.month - 1)⟩
  else ⟨d.year - 1, 12, 31⟩

/-- `AddDate(0, 0, n)` for `n ≥ 0`. -/
def Date.addDays (d : Date) : Nat → Date
  | 0 => d
  | n + 1 => (d.addDays n).next

/-- An instant: a calendar day plus a second of that day, in the single
configured location. -/
structure Timestamp where
  date : Date
  sod : Nat
deriving DecidableEq

/-- Absolute position of the instant, in seconds from the civil epoch.
Go compares and subtracts `time.Time` values as absolute instants; for
valid calendar fields that order and difference coincide with this
count. -/
def Timestamp.epochSecs (t : Timestamp) : Nat :=
  86400 * dateDays t.date + t.sod

/-- Valid instant: valid date and a second of day below 86400. -/
def Timestamp.Valid (t : Timestamp) : Prop :=
  t.date.Valid ∧ t.sod < 86400

instance (t : Timestamp) : Decidable t.Valid := by
  unfold Timestamp.Valid; infer_instance

/-- Go `t1.Before(t2)` on instants of the configured location. -/
def tsLt (a b : Timestamp) : Bool := a.epochSecs < b.epochSecs

/-- Go `t1.Before(t2) || t1.Equal(t2)`; the order used by the
`start_time` index of the ledger. -/
def tsLe (a b : Timestamp) : Bool := a.epochSecs ≤ b.epochSecs

/-- Midnight of the instant's day: what `normalizeRange` makes of the
range's start. -/
def dayFloor (t : Timestamp) : Timestamp := ⟨t.date, 0⟩

/-- Last second of the instant's day (23:59:59): what `normalizeRange`
makes of the range's end. -/
def dayCeil (t : Timestamp) : Timestamp := ⟨t.date, 86399⟩

/-- Go's zero `time.Time` (`IsZero`), at second precision. -/
def tsZero : Timestamp := ⟨⟨1, 1, 1⟩, 0⟩

/-! ### Calendar arithmetic lemmas -/

theorem daysBeforeMonth_succ (y m : Nat) (h : 1 ≤ m) :
    daysBeforeMonth y (m + 1) = daysBeforeMonth y m + daysInMonth y m := by
  match m, h with
  | m + 1, _ => rfl

theorem daysInMonth_pos (y m : Nat) : 1 ≤ daysInMonth y m := by
  unfold daysInMonth
  split
  · split <;> omega
  · split <;> omega

theorem daysInMonth_le (y m : Nat) : daysInMonth y m ≤ 31 := by
  unfold daysInMonth
  split
  · split <;> omega
  · split <;> omega

/-- One extra day in a leap year, as a natural number. -/
def leapDay (y : Nat) : Nat := if isLeap y then 1 else 0

theorem leapDay_of_true {y : Nat} (h : isLeap y = true) : leapDay y = 1 := by
  unfold leapDay; rw [h]; rfl

theorem leapDay_of_false {y : Nat} (h : isLeap y = false) : leapDay y = 0 := by
  unfold leapDay; rw [h]; rfl

theorem isLeap_true_iff (y : Nat) :
    isLeap y = true ↔ ((y % 4 = 0 ∧ ¬y % 100 = 0) ∨ y % 400 = 0) := by
  unfold isLeap
  simp [Bool.or_eq_true, Bool.and_eq_true, beq_iff_eq, bne_iff_ne]

theorem daysBeforeMonth_thirteen (y : Nat) :
    daysBeforeMonth y 13 = 365 + leapDay y := by
  cases h : isLeap y with
  | true =>
    rw [leapDay_of_true h]
    simp [daysBeforeMonth, daysInMonth, h]
  | false =>
    rw [leapDay_of_false h]
    simp [daysBeforeMonth, daysInMonth, h]

set_option maxHeartbeats 1000000 in
theorem daysBeforeYear_succ (y : Nat) (h : 1 ≤ y) :
    daysBeforeYear (y + 1) = daysBeforeYear y + 365 + leapDay y := by
  cases hlb : isLeap y with
  | true =>
    have hlb' := (isLeap_true_iff y).mp hlb
    rw [leapDay_of_true hlb]
    simp only [daysBeforeYear]
    rcases hlb' with ⟨h4, h100⟩ | h400
    · omega
    · omega
  | false =>
    have hlb' : ¬((y % 4 = 0 ∧ ¬y % 100 = 0) ∨ y % 400 = 0) := fun hc => by
      rw [← isLeap_true_iff y, hlb] at hc
      cases hc
    push_neg at hlb'
    obtain ⟨himp, h400⟩ := hlb'
    rw [leapDay_of_false hlb]
    simp only [daysBeforeYear]
    by_cases h4 : y % 4 = 0
    · have h100 := himp h4
      omega
    · omega

theorem dateDays_mk (y m dy : Nat) :
    dateDays ⟨y, m, dy⟩ = daysBeforeYear y + daysBeforeMonth y m + (dy - 1) := rfl

theorem valid_mk (y m dy : Nat) :
    (Date.mk y m dy).Valid ↔
      (2 ≤ y ∧ 1 ≤ m ∧ m ≤ 12 ∧ 1 ≤ dy ∧ dy ≤ daysInMonth y m) :=
  Iff.rfl

theorem daysBeforeMonth_one (y : Nat) : daysBeforeMonth y 1 = 0 := rfl

theorem daysInMonth_twelve (y : Nat) : daysInMonth y 12 = 31 := rfl

theorem dateDays_next (d : Date) (hv : d.Valid) :
    dateDays d.next = dateDays d + 1 := by
  rcases d with ⟨y, m, dy⟩
  obtain ⟨hy, hm1, hm2, hd1, hd2⟩ := hv
  dsimp only at hy hm1 hm2 hd1 hd2
  unfold Date.next
  dsimp only
  by_cases hlt : dy < daysInMonth y m
  · simp only [hlt, if_true, dateDays_mk]
    omega
  · simp only [hlt, if_false]
    have hde : dy = daysInMonth y m := by omega
    by_cases hmlt : m < 12
    · simp only [hmlt, if_true, dateDays_mk]
      rw [daysBeforeMonth_succ y m hm1]
      have := daysInMonth_pos y m
      omega
    · simp only [hmlt, if_false, dateDays_mk]
      have hm12 : m = 12 := by omega
      subst hm12
      rw [daysBeforeYear_succ y (by omega), daysBeforeMonth_one]
      have h13 := daysBeforeMonth_thirteen y
      have h1213 : daysBeforeMonth y 13 = daysBeforeMonth y 12 + daysInMonth y 12 :=
        daysBeforeMonth_succ y 12 (by omega)
      rw [daysInMonth_twelve] at h1213
      rw [daysInMonth_twelve] at hde
      omega

theorem next_valid (d : Date) (hv : d.Valid) : d.next.Valid := by
  rcases d with ⟨y, m, dy⟩
  obtain ⟨hy, hm1, hm2, hd1, hd2⟩ := hv
  dsimp only at hy hm1 hm2 hd1 hd2
  unfold Date.next
  dsimp only
  by_cases hlt : dy < daysInMonth y m
  · simp only [hlt, if_true, valid_mk]
    exact ⟨hy, hm1, hm2, by omega, by omega⟩
  · simp only [hlt, if_false]
    by_cases hmlt : m < 12
    · simp only [hmlt, if_true, valid_mk]
      exact ⟨hy, by omega, by omega, by omega, daysInMonth_pos _ _⟩
    · simp only [hmlt, if_false, valid_mk]
      exact ⟨by omega, by omega, by omega, by omega, daysInMonth_pos _ _⟩

theorem dateDays_prev (d : Date) (hv : d.Valid) :
    dateDays d.prev + 1 = dateDays d := by
  rcases d with ⟨y, m, dy⟩
  obtain ⟨hy, hm1, hm2, hd1, hd2⟩ := hv
  dsimp only at hy hm1 hm2 hd1 hd2
  unfold Date.prev
  dsimp only
  by_cases hgt : 1 < dy
  · simp only [hgt, if_true, dateDays_mk]
    omega
  · simp only [hgt, if_false]
    have hde : dy = 1 := by omega
    by_cases hmgt : 1 < m
    · simp only [hmgt, if_true, dateDays_mk]
      have hs : daysBeforeMonth y (m - 1 + 1) =
          daysBeforeMonth y (m - 1) + daysInMonth y (m - 1) :=
        daysBeforeMonth_succ y (m - 1) (by omega)
      have he : m - 1 + 1 = m := by omega
      rw [he] at hs
      have := daysInMonth_pos y (m - 1)
      omega
    · simp only [hmgt, if_false, dateDays_mk]
      have hm1e : m = 1 := by omega
      subst hm1e
      have hsy : daysBeforeYear (y - 1 + 1) =
          daysBeforeYear (y - 1) + 365 + leapDay (y - 1) :=
        daysBeforeYear_succ (y - 1) (by omega)
      have hye : y - 1 + 1 = y := by omega
      rw [hye] at hsy
      have h13 := daysBeforeMonth_thirteen (y - 1)
      have h1213 : daysBeforeMonth (y - 1) 13 =
          daysBeforeMonth (y - 1) 12 + daysInMonth (y - 1) 12 :=
        daysBeforeMonth_succ (y - 1) 12 (by omega)
      rw [daysInMonth_twelve] at h1213
      rw [daysBeforeMonth_one]
      omega

theorem dateDays_addDays (d : Date) (hv : d.Valid) (n : Nat) :
    dateDays (d.addDays n) = dateDays d + n ∧ (d.addDays n).Valid := by
  induction n with
  | zero => exact ⟨rfl, hv⟩
  | succ k ih =>
    refine ⟨?_, next_valid _ ih.2⟩
    show dateDays (d.addDays k).next = _
    rw [dateDays_next _ ih.2, ih.1]
    omega

/-! ## Sessions and the time-of-day parser -/

/-- A ledger row (`storage.WorkSession`), as stored: the `date` column is
the calendar day the session is attributed to, `start`/`endTime` the
absolute instants at second precision. -/
structure Session where
  id : String
  date : Date
  start : Timestamp
  endTime : Option Timestamp
  breakMinutes : Int
  note : String
deriving DecidableEq

/-- Value of a decimal digit character. -/
def digitVal (c : Char) : Option Nat :=
  if c.isDigit then some (c.toNat - 48) else none

/-- A two-digit field of the clock formats (Go parses the zero-padded
reference fields `04`/`05` as exactly two digits). -/
def twoDigits (s : List Char) : Option Nat :=
  match s with
  | [a, b] =>
    match digitVal a, digitVal b with
    | some x, some y => some (10 * x + y)
    | _, _ => none
  | _ => none

/-- An hour field: one or two digits (Go parses the reference fields
`15` and `3` with one or two digits). -/
def hourNum (s : List Char) : Option Nat :=
  match s with
  | [a] => digitVal a
  | [a, b] =>
    match digitVal a, digitVal b with
    | some x, some y => some (10 * x + y)
    | _, _ => none
  | _ => none

/-- The colon-separated fields of the input (what Go's format-driven
scanner consumes around the `:` literals of the clock formats). -/
def splitCols : List Char → List (List Char)
  | [] => [[]]
  | c :: rest =>
    if c = ':' then [] :: splitCols rest
    else
      match splitCols rest with
      | g :: gs => (c :: g) :: gs
      | [] => [[c]]

/-- Go `time.Parse` tried over the four formats `15:04`, `3:04`,
`15:04:05` and `3:04:05` (the loop of `parseTimeOnDate`), returning the
parsed second of day: an hour 0-23, a two-digit minute, optionally a
two-digit second, nothing else. -/
def parseClock (s : String) : Option Nat :=
  match splitCols s.data with
  | [hs, ms] =>
    match hourNum hs, twoDigits ms with
    | some h, some m => if h ≤ 23 ∧ m ≤ 59 then some (3600 * h + 60 * m) else none
    | _, _ => none
  | [hs, ms, ss] =>
    match hourNum hs, twoDigits ms, twoDigits ss with
    | some h, some m, some sec =>
      if h ≤ 23 ∧ m ≤ 59 ∧ sec ≤ 59 then some (3600 * h + 60 * m + sec) else none
    | _, _, _ => none
  | _ => none

/-- Character-list test that `s` begins with `pre` (the semantics of
the source's `LIKE` lookup with a trailing wildcard). -/
def charsBeginWith (s pre : List Char) : Bool :=
  match s, pre with
  | _, [] => true
  | [], _ :: _ => false
  | c :: cs, p :: ps => c == p && charsBeginWith cs ps

/-- String form of `charsBeginWith`. -/
def strBeginsWith (s pre : String) : Bool := charsBeginWith s.data pre.data

theorem parseClock_lt (s : String) (v : Nat) (h : parseClock s = some v) : v < 86400 := by
  unfold parseClock at h
  repeat' split at h
  all_goals first
    | (injection h with h; omega)
    | simp at h

/-! ## The session ledger (`internal/storage`, location-aware revision) -/

/-- Ascending `start_time` order of the range query (`ORDER BY start_time
ASC`). -/
def startLe (a b : Session) : Prop := a.start.epochSecs ≤ b.start.epochSecs

instance : DecidableRel startLe := fun a b => by
  unfold startLe; infer_instance

/-- Descending `start_time` order of the active-session query (`ORDER BY
start_time DESC`). -/
def startGe (a b : Session) : Prop := b.start.epochSecs ≤ a.start.epochSecs

instance : DecidableRel startGe := fun a b => by
  unfold startGe; infer_instance

/-- `InsertSession`: assigns the fresh identifier when the record has
none, derives the `date` column from the start instant when that is
non-zero (the `dateValue` logic), and appends the row. -/
def insertSession (l : List Session) (s : Session) (fresh : String) : List Session :=
  l ++ [{ s with
    id := if s.id = "" then fresh else s.id
    date := if s.start = tsZero then s.date else s.start.date }]

/-- `UpdateSession`: full replace of every row carrying the session's id
(`id` is the primary key, so at most one row in practice), with the same
`dateValue` derivation as the insert. -/
def updateSession (l : List Session) (s : Session) : List Session :=
  l.map fun t =>
    if t.id = s.id then
      { s with date := if s.start = tsZero then s.date else s.start.date }
    else t

/-- `GetSessionByPrefix` of the source: the first row whose id begins
with the given 8-character short form (`LIKE` with a trailing wildcard,
first row wins). -/
def getSessionByShortForm (l : List Session) (pre : String) : Option Session :=
  l.find? fun s => strBeginsWith s.id pre

/-- `GetSessionByID`: exact match first; only when no row matches and the
input has at least 8 characters, resolve the input's first 8 characters
as a short form. -/
def getSessionByID (l : List Session) (id : String) : Option Session :=
  match l.find? (fun s => decide (s.id = id)) with
  | some s => some s
  | none => if 8 ≤ id.length then getSessionByShortForm l (id.take 8) else none

/-- `GetActiveSession`: of the rows with no `end_time`, the one with the
greatest start (`ORDER BY start_time DESC LIMIT 1`), or none. -/
def getActiveSession (l : List Session) : Option Session :=
  (List.insertionSort startGe (l.filter fun s => s.endTime.isNone)).head?

/-- Filter of the range query: `normalizeRange` widens the bounds to
whole local days, and the SQL keeps the rows with `start_time <=
rangeEnd AND (end_time IS NULL OR end_time >= rangeStart)`. Here `rs`
and `re` are the already-normalized bounds. -/
def inRange (rs re : Timestamp) (s : Session) : Bool :=
  tsLe s.start re &&
    (match s.endTime with
     | none => true
     | some e => tsLe rs e)

/-- `GetSessionsInRange`: the rows passing `inRange` for the normalized
bounds, in ascending `start_time` order. -/
def getSessionsInRange (l : List Session) (start stop : Timestamp) : List Session :=
  List.insertionSort startLe (l.filter (inRange (dayFloor start) (dayCeil stop)))

/-- `DeleteSession`: removes the rows with exactly the given id. -/
def deleteSession (l : List Session) (id : String) : List Session :=
  l.filter fun s => !decide (s.id = id)

/-- `DeleteSessionsInRange`: removes the rows the range query would
return for the same bounds. -/
def deleteSessionsInRange (l : List Session) (start stop : Timestamp) : List Session :=
  l.filter fun s => !inRange (dayFloor start) (dayCeil stop) s

/-- One step of the running minimum over `start_time`. -/
def minStartAcc (acc : Option Timestamp) (s : Session) : Option Timestamp :=
  match acc with
  | none => some s.start
  | some t => if s.start.epochSecs < t.epochSecs then some s.start else some t

/-- `GetOldestSessionDate`: the minimum `start_time` over all rows
(`SELECT MIN(start_time)`), or none when the ledger is empty. -/
def oldestSessionStart (l : List Session) : Option Timestamp :=
  l.foldl minStartAcc none

/-! ## The tracker (`internal/tracker/tracker.go`, location-aware revision) -/

/-- Duration of a closed interval in hours minus the break
(`EndTime.Sub(StartTime).Hours() - float64(BreakMinutes)/60`), as an
exact rational. -/
def sessionHours (start stop : Timestamp) (breakMin : Int) : ℚ :=
  ((stop.epochSecs : ℚ) - (start.epochSecs : ℚ)) / 3600 - (breakMin : ℚ) / 60

/-- `tracker.DayProgress`. -/
structure DayProgress where
  date : Timestamp
  sessions : List Session
  totalHours : ℚ
  currentSessionID : String
deriving DecidableEq

/-- One iteration of the `GetTodayProgress` loop: a closed row adds its
hours, an open row becomes the current session. -/
def dayStep (p : DayProgress) (s : Session) : DayProgress :=
  match s.endTime with
  | some e => { p with totalHours := p.totalHours + sessionHours s.start e s.breakMinutes }
  | none => { p with currentSessionID := s.id }

/-- `Tracker.GetTodayProgress`: one pass over today's range, summing the
closed rows and remembering the id of an open one. -/
def getTodayProgress (l : List Session) (now : Timestamp) : DayProgress :=
  (getSessionsInRange l now now).foldl dayStep
    { date := now
      sessions := getSessionsInRange l now now
      totalHours := 0
      currentSessionID := "" }

/-- The blank open session `ClockInWithTime` starts from: both `Date`
and `StartTime` at `now`, no end, no break. -/
def mkOpenSession (now : Timestamp) (note : String) : Session :=
  { id := ""
    date := now.date
    start := now
    endTime := none
    breakMinutes := 0
    note := note }

/-- The session `ClockInWithTime` builds before inserting: start at
`now`, or at the parseable override's time of that day, shifted one day
back when it would lie in the future. -/
def clockInSession (now : Timestamp) (note timeStr : String) : Session :=
  if timeStr = "" then mkOpenSession now note
  else
    match parseClock timeStr with
    | none => mkOpenSession now note
    | some tod =>
      if tsLt now ⟨now.date, tod⟩ then
        { mkOpenSession now note with
          start := ⟨now.date.prev, tod⟩
          date := now.date.prev }
      else
        { mkOpenSession now note with
          start := ⟨now.date, tod⟩
          date := now.date }

/-- `Tracker.ClockInWithTime` (`ClockIn` is the `timeStr = ""` case):
builds the open session, an unparseable override being ignored, and
inserts it with the fresh identifier the store would mint. -/
def clockInWithTime (l : List Session) (now : Timestamp) (note timeStr : String)
    (fresh : String) : List Session :=
  insertSession l (clockInSession now note timeStr) fresh

/-- `parseTimeOnDate` followed by the roll-forward check: the parsed
time of day on the base instant's calendar day, moved 24 hours later
when that instant would precede the base. -/
def rollOnto (base : Timestamp) (tod : Nat) : Timestamp :=
  if tsLt ⟨base.date, tod⟩ base then ⟨base.date.next, tod⟩ else ⟨base.date, tod⟩

/-- The end instant `ClockOutWithTime` stores: `now`, or the parseable
override resolved onto the session start's day. -/
def clockOutEnd (start now : Timestamp) (timeStr : String) : Timestamp :=
  if timeStr = "" then now
  else
    match parseClock timeStr with
    | none => now
    | some tod => rollOnto start tod

/-- The closed row `ClockOutWithTime` writes back: end set, break
stored, note replaced only when non-empty. -/
def closeSession (sess : Session) (endT : Timestamp) (breakMin : Int)
    (note : String) : Session :=
  { sess with
    endTime := some endT
    breakMinutes := breakMin
    note := if note = "" then sess.note else note }

/-- `Tracker.ClockOutWithTime` (`ClockOut` is the `timeStr = ""` case):
resolves the id, closes the row at `clockOutEnd`, and writes it back.
`none` models the not-found error. -/
def clockOutWithTime (l : List Session) (now : Timestamp) (id : String)
    (breakMin : Int) (note timeStr : String) : Option (List Session × Session) :=
  match getSessionByID l id with
  | none => none
  | some sess =>
    some (updateSession l (closeSession sess (clockOutEnd sess.start now timeStr) breakMin note),
      closeSession sess (clockOutEnd sess.start now timeStr) breakMin note)

/-- The break update of `EditSessionSelective` (only when explicitly
changed). -/
def editBreak (s : Session) (breakMin : Int) (changed : Bool) : Session :=
  if changed then { s with breakMinutes := breakMin } else s

/-- The note update of `EditSessionSelective` (only when explicitly
changed). -/
def editNote (s : Session) (note : String) (changed : Bool) : Session :=
  if changed then { s with note := note } else s

/-- The start update of `EditSessionSelective`: a parseable override
moves the start within its own calendar day and re-derives the
attributed date; anything else is ignored. -/
def editStart (s : Session) (startStr : String) : Session :=
  if startStr = "" then s
  else
    match parseClock startStr with
    | none => s
    | some tod =>
      { s with
        start := ⟨s.start.date, tod⟩
        date := s.start.date }

/-- The end update of `EditSessionSelective`: a parseable override is
resolved onto the (possibly already updated) start's day, rolling one
day forward when it would precede the start. -/
def editEnd (s : Session) (endStr : String) : Session :=
  if endStr = "" then s
  else
    match parseClock endStr with
    | none => s
    | some tod => { s with endTime := some (rollOnto s.start tod) }

/-- `Tracker.EditSessionSelective`: resolves the id, changes only the
explicitly supplied fields, and writes the row back. -/
def editSessionSelective (l : List Session) (id : String) (breakMin : Int)
    (breakChanged : Bool) (note : String) (noteChanged : Bool)
    (startStr endStr : String) : Option (List Session) :=
  match getSessionByID l id with
  | none => none
  | some s0 =>
    some (updateSession l
      (editEnd (editStart (editNote (editBreak s0 breakMin breakChanged) note noteChanged)
        startStr) endStr))

/-- `tracker.WeekProgress`; the per-day map becomes an association list
in first-insertion order (Go only reads its size and its values per
key). -/
structure WeekProgress where
  weekStart : Timestamp
  weekEnd : Timestamp
  totalHours : ℚ
  daysWorked : List (Date × ℚ)
  daysWorkedCount : Nat
  remainingHours : ℚ
  sessions : List Session
deriving DecidableEq

/-- `progress.DaysWorked[dayKey] += hours` of the Go loop on the
association list: add under an existing key, else append the key. -/
def bumpDay (m : List (Date × ℚ)) (k : Date) (v : ℚ) : List (Date × ℚ) :=
  match m with
  | [] => [(k, v)]
  | (k', v') :: rest => if k' = k then (k', v' + v) :: rest else (k', v') :: bumpDay rest k v

/-- One iteration of the `computeWeekProgress` loop: a closed row adds
its hours to the total and to its attributed date's bucket. -/
def weekStep (acc : ℚ × List (Date × ℚ)) (s : Session) : ℚ × List (Date × ℚ) :=
  match s.endTime with
  | none => acc
  | some e =>
    (acc.1 + sessionHours s.start e s.breakMinutes,
      bumpDay acc.2 s.date (sessionHours s.start e s.breakMinutes))

/-- The fold of `computeWeekProgress` over the fetched sessions: total
hours of the closed rows, and the per-day map keyed by the attributed
date. -/
def weekFold (sessions : List Session) : ℚ × List (Date × ℚ) :=
  sessions.foldl weekStep (0, [])

/-- `Tracker.computeWeekProgress`: fetches `[weekStart, weekStart+6d]`,
folds the closed rows, and derives count and remaining hours. -/
def computeWeekProgress (goal : ℚ) (l : List Session) (weekStart : Timestamp) : WeekProgress :=
  { weekStart := weekStart
    weekEnd := ⟨weekStart.date.addDays 6, weekStart.sod⟩
    totalHours := (weekFold (getSessionsInRange l weekStart
      ⟨weekStart.date.addDays 6, weekStart.sod⟩)).1
    daysWorked := (weekFold (getSessionsInRange l weekStart
      ⟨weekStart.date.addDays 6, weekStart.sod⟩)).2
    daysWorkedCount := (weekFold (getSessionsInRange l weekStart
      ⟨weekStart.date.addDays 6, weekStart.sod⟩)).2.length
    remainingHours := goal - (weekFold (getSessionsInRange l weekStart
      ⟨weekStart.date.addDays 6, weekStart.sod⟩)).1
    sessions := getSessionsInRange l weekStart ⟨weekStart.date.addDays 6, weekStart.sod⟩ }

/-! ## The command layer (`clockinCmd`, `clockoutCmd`, `editCmd`,
`deleteCmd` of the cobra command file) -/

/-- The identifiers the store mints (`uuid.New().String()`): modelled as
an injective supply of non-empty strings, numbered by the state's
counter. -/
def idOfNat (n : Nat) : String := String.mk (List.replicate (n + 1) 'a')

/-- The ledger plus the supply counter for fresh identifiers. -/
structure TrackState where
  ledger : List Session
  nextN : Nat
deriving DecidableEq

/-- The empty store. -/
def initState : TrackState := ⟨[], 0⟩

/-- One command-layer operation; `now` is the wall-clock instant the
command runs at. -/
inductive Op where
  | clockin (now : Timestamp) (note timeStr : String)
  | clockout (now : Timestamp) (breakMin : Int) (timeStr : String)
  | editOp (id : String) (breakMin : Int) (breakChanged : Bool) (note : String)
      (noteChanged : Bool) (startStr endStr : String)
  | deleteOp (id : String)
deriving DecidableEq

/-- One command, as the cobra handlers run it: `clockin` refuses when
today's progress reports an open session; `clockout` targets the id of
the active session and is a no-op without one; `edit` and `delete`
resolve their id. A refused or failed command leaves the store
unchanged. -/
def step (st : TrackState) : Op → TrackState
  | .clockin now note timeStr =>
    if (getTodayProgress st.ledger now).currentSessionID = "" then
      { ledger := clockInWithTime st.ledger now note timeStr (idOfNat st.nextN)
        nextN := st.nextN + 1 }
    else st
  | .clockout now breakMin timeStr =>
    match getActiveSession st.ledger with
    | none => st
    | some a =>
      match clockOutWithTime st.ledger now a.id breakMin "" timeStr with
      | none => st
      | some (l', _) => { st with ledger := l' }
  | .editOp id breakMin breakChanged note noteChanged startStr endStr =>
    match editSessionSelective st.ledger id breakMin breakChanged note noteChanged
        startStr endStr with
    | none => st
    | some l' => { st with ledger := l' }
  | .deleteOp id => { st with ledger := deleteSession st.ledger id }

/-- A sequence of commands. -/
def runOps (st : TrackState) (ops : List Op) : TrackState := ops.foldl step st

/-- The wall-clock instant a command runs at, when it reads the clock. -/
def nowOf : Op → Option Timestamp
  | .clockin now _ _ => some now
  | .clockout now _ _ => some now
  | _ => none

/-- The wall clock is sane along the sequence: every instant read is a
valid calendar instant, and the clock never jumps back past `d`, the day
count of the last instant read. -/
def nowsOK : Nat → List Op → Bool
  | _, [] => true
  | d, op :: rest =>
    match nowOf op with
    | none => nowsOK d rest
    | some t => decide t.Valid && decide (d ≤ dateDays t.date) && nowsOK (dateDays t.date) rest

/-- Number of open rows of the ledger. -/
def activeCount (l : List Session) : Nat := (l.filter fun s => s.endTime.isNone).length

/-! ## The archiver (`internal/archive/archive.go`) -/

/-- Which of the fallible calls of one `ArchiveMonth` run succeed: the
session fetch, `os.MkdirAll`, `os.WriteFile` and the cleanup delete. -/
structure IoOracle where
  fetchOk : Bool
  mkdirOk : Bool
  writeOk : Bool
  deleteOk : Bool
deriving DecidableEq

/-- The run where every call succeeds. -/
def allOk : IoOracle := ⟨true, true, true, true⟩

/-- The errors `ArchiveMonth` returns; `AutoArchivePastMonths`
distinguishes the empty-month one by its `"no sessions found"` text. -/
inductive ArchiveError where
  | fetchFailed
  | emptyMonth (year month : Nat)
  | mkdirFailed
  | writeFailed
  | cleanFailed
deriving DecidableEq

/-- The `strings.Contains(err.Error(), "no sessions found")` test: only
the empty-month error carries that text. -/
def ArchiveError.isEmptyMonth : ArchiveError → Bool
  | .emptyMonth _ _ => true
  | _ => false

/-- Two-digit zero-padded month (`%02d`). -/
def pad2 (n : Nat) : String := if n < 10 then "0" ++ toString n else toString n

/-- The archive record's deterministic name (`"%d-%02d.md"`). -/
def recordName (year month : Nat) : String :=
  toString year ++ "-" ++ pad2 month ++ ".md"

/-- `time.Date(year, month, 1, 0, 0, 0, 0, loc)`. -/
def monthFirst (year month : Nat) : Timestamp := ⟨⟨year, month, 1⟩, 0⟩

/-- `monthStart.AddDate(0, 1, 0).Add(-time.Second)`: the last second of
the month. -/
def monthLast (year month : Nat) : Timestamp :=
  ⟨⟨year, month, daysInMonth year month⟩, 86399⟩

/-- The ledger plus the names present in the history directory (the
record contents are not modelled: no specified behavior reads them
back, only `os.Stat` existence checks). -/
structure ArchState where
  ledger : List Session
  files : List String
deriving DecidableEq

/-- The history directory after `os.WriteFile` of the month's record:
the deterministic name is present exactly once (an existing record is
overwritten in place). -/
def filesAfterWrite (files : List String) (year month : Nat) : List String :=
  if recordName year month ∈ files then files else files ++ [recordName year month]

/-- `Archiver.ArchiveMonth`: fetch the month's sessions, fail on an
empty month, render (pure), ensure the directory, write the record, and
only then, when asked, delete the same range from the ledger. Each
fallible call consults the oracle. -/
def archiveMonth (io : IoOracle) (st : ArchState) (year month : Nat)
    (cleanDB : Bool) : ArchState × Except ArchiveError Unit :=
  if io.fetchOk = false then (st, .error .fetchFailed)
  else if (getSessionsInRange st.ledger (monthFirst year month)
      (monthLast year month)).isEmpty then
    (st, .error (.emptyMonth year month))
  else if io.mkdirOk = false then (st, .error .mkdirFailed)
  else if io.writeOk = false then (st, .error .writeFailed)
  else if cleanDB then
    if io.deleteOk = false then
      ({ st with files := filesAfterWrite st.files year month }, .error .cleanFailed)
    else
      ({ ledger := deleteSessionsInRange st.ledger (monthFirst year month)
           (monthLast year month)
         files := filesAfterWrite st.files year month }, .ok ())
  else ({ st with files := filesAfterWrite st.files year month }, .ok ())

/-- Linear month index used to walk months in order
(`monthStart.AddDate(0, 1, 0)` is index + 1, `Before(currentMonth)` is
index <). -/
def ymIdx (year month : Nat) : Nat := 12 * year + (month - 1)

/-- The month of a linear index. -/
def ymOfIdx (i : Nat) : Nat × Nat := (i / 12, i % 12 + 1)

/-- The months from index `o` (inclusive) up to `c` (exclusive), in
walk order. -/
def monthsFromTo (o c : Nat) : List (Nat × Nat) :=
  (List.range (c - o)).map fun k => ymOfIdx (o + k)

/-- The walk of `AutoArchivePastMonths`: skip a month whose record
exists, archive the rest with deletion, skip an empty month silently,
abort on any other error with what was archived so far. -/
def autoLoop (io : Nat → Nat → IoOracle) :
    List (Nat × Nat) → ArchState → List String →
      ArchState × List String × Option ArchiveError
  | [], st, acc => (st, acc, none)
  | ym :: rest, st, acc =>
    if recordName ym.1 ym.2 ∈ st.files then autoLoop io rest st acc
    else
      match archiveMonth (io ym.1 ym.2) st ym.1 ym.2 true with
      | (st', .ok _) => autoLoop io rest st' (acc ++ [recordName ym.1 ym.2])
      | (st', .error e) =>
        if e.isEmptyMonth then autoLoop io rest st' acc
        else (st', acc, some e)

/-- `Archiver.AutoArchivePastMonths`: no-op on an empty ledger, else
walk every month from the oldest session's month strictly before the
month of `now`. -/
def autoArchivePastMonths (io : Nat → Nat → IoOracle) (st : ArchState)
    (now : Timestamp) : ArchState × List String × Option ArchiveError :=
  match oldestSessionStart st.ledger with
  | none => (st, [], none)
  | some t =>
    autoLoop io
      (monthsFromTo (ymIdx t.date.year t.date.month) (ymIdx now.date.year now.date.month))
      st []

/-! ## General lemmas about the ledger queries -/

instance : IsTotal Session startLe :=
  ⟨fun a b => by unfold startLe; omega⟩

instance : IsTrans Session startLe :=
  ⟨fun a b c => by unfold startLe; omega⟩

theorem getSessionsInRange_perm (l : List Session) (a b : Timestamp) :
    (getSessionsInRange l a b).Perm (l.filter (inRange (dayFloor a) (dayCeil b))) :=
  List.perm_insertionSort _ _

theorem mem_getSessionsInRange {l : List Session} {a b : Timestamp} {s : Session} :
    s ∈ getSessionsInRange l a b ↔ s ∈ l ∧ inRange (dayFloor a) (dayCeil b) s = true := by
  unfold getSessionsInRange
  rw [List.mem_insertionSort, List.mem_filter]

theorem getSessionsInRange_eq_nil {l : List Session} {a b : Timestamp}
    (h : ∀ s ∈ l, inRange (dayFloor a) (dayCeil b) s = false) :
    getSessionsInRange l a b = [] := by
  unfold getSessionsInRange
  have : l.filter (inRange (dayFloor a) (dayCeil b)) = [] := by
    rw [List.filter_eq_nil_iff]
    intro s hs
    rw [h s hs]
    simp
  rw [this]
  rfl

/-! ## Claim theorems -/

/-- Scenario fixtures: Monday 2024-01-01 and Tuesday 2024-01-02. -/
def dJan1 : Date := ⟨2024, 1, 1⟩

/-- Tuesday of the scenario week. -/
def dJan2 : Date := ⟨2024, 1, 2⟩

/-- Closed Monday session 09:00-17:00, break 30. -/
def sessJan1 : Session :=
  ⟨"mona0000", dJan1, ⟨dJan1, 32400⟩, some ⟨dJan1, 61200⟩, 30, ""⟩

/-- Closed Tuesday session 09:00-17:30, break 30. -/
def sessJan2 : Session :=
  ⟨"tueb0000", dJan2, ⟨dJan2, 32400⟩, some ⟨dJan2, 63000⟩, 30, ""⟩

/-- Same-day closed sessions have elapsed hours given by the seconds of
day alone (the day component cancels). -/
theorem sessionHours_same_date (d : Date) (a b : Nat) (bm : Int) :
    sessionHours ⟨d, a⟩ ⟨d, b⟩ bm = ((b : ℚ) - (a : ℚ)) / 3600 - (bm : ℚ) / 60 := by
  unfold sessionHours Timestamp.epochSecs
  push_cast
  ring_nf

/-- C6: with a weekly goal of 38.5 hours, a week holding exactly the
closed Monday 09:00-17:00 (break 30) and Tuesday 09:00-17:30 (break 30)
sessions yields `TotalHours = 15.5`, `RemainingHours = 23.0` and
`DaysWorkedCount = 2`. -/
theorem claim6_week_scenario :
    (computeWeekProgress 38.5 [sessJan1, sessJan2] ⟨dJan1, 0⟩).totalHours = 15.5 ∧
    (computeWeekProgress 38.5 [sessJan1, sessJan2] ⟨dJan1, 0⟩).remainingHours = 23 ∧
    (computeWeekProgress 38.5 [sessJan1, sessJan2] ⟨dJan1, 0⟩).daysWorkedCount = 2 := by
  have hrange : getSessionsInRange [sessJan1, sessJan2] ⟨dJan1, 0⟩
      ⟨(⟨dJan1, 0⟩ : Timestamp).date.addDays 6, (⟨dJan1, 0⟩ : Timestamp).sod⟩ =
        [sessJan1, sessJan2] := by decide
  have h1 : sessionHours ⟨dJan1, 32400⟩ ⟨dJan1, 61200⟩ 30 = 15 / 2 := by
    rw [sessionHours_same_date]
    norm_num
  have h2 : sessionHours ⟨dJan2, 32400⟩ ⟨dJan2, 63000⟩ 30 = 8 := by
    rw [sessionHours_same_date]
    norm_num
  refine ⟨?_, ?_, ?_⟩
  · simp only [computeWeekProgress]
    rw [hrange]
    simp only [weekFold, weekStep, List.foldl, sessJan1, sessJan2]
    rw [h1, h2]
    norm_num
  · simp only [computeWeekProgress]
    rw [hrange]
    simp only [weekFold, weekStep, List.foldl, sessJan1, sessJan2]
    rw [h1, h2]
    norm_num
  · decide

/-- C4: when the ledger holds no session of the requested month,
`archiveMonth` returns the empty-month error and leaves the whole state
(records and ledger) unchanged, for either value of the deletion flag. -/
theorem claim4_empty_month (io : IoOracle) (st : ArchState) (y m : Nat) (clean : Bool)
    (hfetch : io.fetchOk = true)
    (hempty : ∀ s ∈ st.ledger, inRange (monthFirst y m) (monthLast y m) s = false) :
    archiveMonth io st y m clean = (st, .error (.emptyMonth y m)) := by
  have hnil : getSessionsInRange st.ledger (monthFirst y m) (monthLast y m) = [] :=
    getSessionsInRange_eq_nil hempty
  unfold archiveMonth
  rw [hfetch, hnil]
  simp

/-- Witness for C4 at a concrete state: one January 2024 session in the
ledger, archiving February 2024 fails with the empty-month error and
changes nothing. -/
theorem claim4_empty_month_witness :
    archiveMonth allOk ⟨[sessJan1], ["x.md"]⟩ 2024 2 true =
      (⟨[sessJan1], ["x.md"]⟩, .error (.emptyMonth 2024 2)) :=
  claim4_empty_month allOk ⟨[sessJan1], ["x.md"]⟩ 2024 2 true (by decide)
    (by decide)

/-- C2: within `archiveMonth`, the ledger is only touched after the
fetch, the directory creation and the record write have all succeeded;
and whenever the ledger did change, the month's record is present in the
history directory. -/
theorem claim2_write_before_delete (io : IoOracle) (st : ArchState) (y m : Nat)
    (clean : Bool) :
    ((io.fetchOk = false ∨ io.mkdirOk = false ∨ io.writeOk = false) →
      (archiveMonth io st y m clean).1.ledger = st.ledger) ∧
    ((archiveMonth io st y m clean).1.ledger ≠ st.ledger →
      recordName y m ∈ (archiveMonth io st y m clean).1.files) := by
  have hmem : recordName y m ∈ filesAfterWrite st.files y m := by
    unfold filesAfterWrite
    split
    · assumption
    · simp
  constructor
  · intro h
    unfold archiveMonth
    rcases h with h | h | h <;> rw [h] <;> split_ifs <;> first | rfl | simp_all
  · intro h
    unfold archiveMonth at h ⊢
    split_ifs at h ⊢ <;> first | exact absurd rfl h | exact hmem

/-- Witness for C2: a run whose record write fails deletes nothing. -/
theorem claim2_write_before_delete_witness :
    (archiveMonth ⟨true, true, false, true⟩ ⟨[sessJan1], []⟩ 2024 1 true).1.ledger =
      [sessJan1] :=
  (claim2_write_before_delete ⟨true, true, false, true⟩ ⟨[sessJan1], []⟩ 2024 1 true).1
    (Or.inr (Or.inr rfl))

/-- Counterexample to C5 as stated: the override `"xx"` does not parse,
yet the clock-in does not abort - it inserts a session (at `now`). -/
theorem claim5_counterexample :
    parseClock "xx" = none ∧ ("xx" : String) ≠ "" ∧
      clockInWithTime [] ⟨dJan1, 36000⟩ "n" "xx" "fresh001" =
        [⟨"fresh001", dJan1, ⟨dJan1, 36000⟩, none, 0, "n"⟩] := by
  refine ⟨rfl, by decide, ?_⟩
  decide

/-- C5 as amended: a non-empty time override that does not parse is
silently ignored rather than surfaced - clock-in inserts the session at
`now`, and clock-out behaves exactly as a call without an override
(closing at `now`). -/
theorem claim5_amended (l : List Session) (now : Timestamp) (note ts fresh : String)
    (hp : parseClock ts = none) :
    clockInWithTime l now note ts fresh = insertSession l (mkOpenSession now note) fresh ∧
    (∀ id bm nt, clockOutWithTime l now id bm nt ts = clockOutWithTime l now id bm nt "") := by
  have hend : ∀ start : Timestamp, clockOutEnd start now ts = now := by
    intro start
    unfold clockOutEnd
    by_cases hts : ts = ""
    · rw [if_pos hts]
    · rw [if_neg hts, hp]
  constructor
  · unfold clockInWithTime clockInSession
    by_cases hts : ts = ""
    · rw [if_pos hts]
    · rw [if_neg hts, hp]
  · intro id bm nt
    unfold clockOutWithTime
    cases hfind : getSessionByID l id with
    | none => rfl
    | some sess =>
      dsimp only
      rw [hend sess.start, show clockOutEnd sess.start now "" = now from rfl]

/-- Witness for C5 as amended, at the counterexample's input. -/
theorem claim5_amended_witness :
    clockInWithTime [] ⟨dJan1, 36000⟩ "n" "xx" "fresh001" =
      insertSession [] (mkOpenSession ⟨dJan1, 36000⟩ "n") "fresh001" :=
  (claim5_amended [] ⟨dJan1, 36000⟩ "n" "xx" "fresh001" rfl).1

theorem tsLt_same_date (d : Date) (a b : Nat) :
    tsLt ⟨d, a⟩ ⟨d, b⟩ = decide (a < b) := by
  unfold tsLt
  apply decide_eq_decide.mpr
  show (⟨d, a⟩ : Timestamp).epochSecs < (⟨d, b⟩ : Timestamp).epochSecs ↔ a < b
  unfold Timestamp.epochSecs
  dsimp only
  omega

/-- C9: a clock-out override that parses is resolved onto the start's
calendar day; when its time of day precedes the start's it is rolled one
day forward, otherwise it is used directly; the result is the stored
end time and the row is written back. -/
theorem claim9_clockout_rollforward (l : List Session) (now : Timestamp)
    (id : String) (bm : Int) (nt ts : String) (sess : Session) (tod : Nat)
    (hfind : getSessionByID l id = some sess)
    (hp : parseClock ts = some tod) :
    ∃ res : List Session × Session,
      clockOutWithTime l now id bm nt ts = some res ∧
      res.2.endTime = some (if tod < sess.start.sod then ⟨Date.next sess.start.date, tod⟩
        else ⟨sess.start.date, tod⟩) ∧
      res.1 = updateSession l res.2 := by
  have hne : ts ≠ "" := by
    rintro rfl
    rw [show parseClock "" = none from rfl] at hp
    cases hp
  have hend : clockOutEnd sess.start now ts =
      (if tod < sess.start.sod then ⟨Date.next sess.start.date, tod⟩
        else ⟨sess.start.date, tod⟩) := by
    unfold clockOutEnd
    rw [if_neg hne, hp]
    show rollOnto sess.start tod = _
    unfold rollOnto
    rw [tsLt_same_date]
    by_cases htod : tod < sess.start.sod
    · simp [htod]
    · simp [htod]
  refine ⟨(updateSession l (closeSession sess (clockOutEnd sess.start now ts) bm nt),
    closeSession sess (clockOutEnd sess.start now ts) bm nt), ?_, ?_, rfl⟩
  · unfold clockOutWithTime
    rw [hfind]
  · show (closeSession sess (clockOutEnd sess.start now ts) bm nt).endTime = _
    simp only [closeSession]
    rw [hend]

/-- Witness for C9: closing the Monday 09:00 session with override
`"02:00"` (earlier than 09:00) stores 02:00 of the following day. -/
theorem claim9_clockout_rollforward_witness :
    ∃ res : List Session × Session,
      clockOutWithTime [sessJan1] ⟨dJan1, 80000⟩ "mona0000" 30 "" "02:00" = some res ∧
      res.2.endTime = some ⟨dJan2, 7200⟩ := by
  obtain ⟨res, hh1, hh2, _⟩ :=
    claim9_clockout_rollforward [sessJan1] ⟨dJan1, 80000⟩ "mona0000" 30 "" "02:00"
      sessJan1 7200 (by decide) (by decide)
  refine ⟨res, hh1, ?_⟩
  rw [hh2]
  decide

/-- C10: an identifier shorter than 8 characters that matches no stored
id exactly resolves to not-found - the short-form fallback is never
consulted for it; the fallback runs only for identifiers of at least 8
characters, on exactly their first 8 characters. -/
theorem claim10_short_id (l : List Session) (id : String) :
    (id.length < 8 → (∀ s ∈ l, s.id ≠ id) → getSessionByID l id = none) ∧
    (8 ≤ id.length → (∀ s ∈ l, s.id ≠ id) →
      getSessionByID l id = getSessionByShortForm l (id.take 8)) := by
  have hnone : (∀ s ∈ l, s.id ≠ id) → l.find? (fun s => decide (s.id = id)) = none := by
    intro h
    rw [List.find?_eq_none]
    intro x hx
    simpa using h x hx
  constructor
  · intro hlen h
    unfold getSessionByID
    rw [hnone h]
    simp [Nat.not_le.mpr hlen]
  · intro hlen h
    unfold getSessionByID
    rw [hnone h]
    simp [hlen]

/-- Witness for C10: the 3-character input `"mon"` is not found even
though exactly one stored id begins with it, while the 8-character input
`"tueb0000"`'s own resolution indeed uses its first 8 characters. -/
theorem claim10_short_id_witness :
    getSessionByID [sessJan1, sessJan2] "mon" = none ∧
      getSessionByID [sessJan1, sessJan2] "mona0000xyz" =
        getSessionByShortForm [sessJan1, sessJan2] (("mona0000xyz" : String).take 8) := by
  constructor
  · exact (claim10_short_id [sessJan1, sessJan2] "mon").1 (by decide) (by decide)
  · exact (claim10_short_id [sessJan1, sessJan2] "mona0000xyz").2 (by decide) (by decide)

/-- The claim's reading of the range query, modelled from the spec's
words: a session intersects the raw inclusive range `[a, b]`, an open
session intersecting every range whose end is at or after its start. -/
def intersectsRaw (a b : Timestamp) (s : Session) : Bool :=
  tsLe s.start b &&
    (match s.endTime with
     | none => true
     | some e => tsLe a e)

/-- Closed session 08:00-09:00 on the Monday, for the C8
counterexample. -/
def sessEarly : Session :=
  ⟨"earl0000", dJan1, ⟨dJan1, 28800⟩, some ⟨dJan1, 32400⟩, 0, ""⟩

/-- Counterexample to C8 as stated: for the instants 10:00 and 11:00 of
the same day, the 08:00-09:00 session does not intersect the raw range,
yet the query returns it (the bounds are widened to whole days first). -/
theorem claim8_counterexample :
    getSessionsInRange [sessEarly] ⟨dJan1, 36000⟩ ⟨dJan1, 39600⟩ = [sessEarly] ∧
      intersectsRaw ⟨dJan1, 36000⟩ ⟨dJan1, 39600⟩ sessEarly = false := by
  refine ⟨?_, ?_⟩ <;> decide

/-- C8 as amended: the query returns exactly the sessions intersecting
the day-normalized range - start widened to its day's midnight, end to
its day's last second - in ascending start order; an open session is
treated as intersecting every such range ending at or after its start. -/
theorem claim8_range_normalized (l : List Session) (a b : Timestamp) :
    (getSessionsInRange l a b).Perm
      (l.filter (intersectsRaw (dayFloor a) (dayCeil b))) ∧
    List.Sorted startLe (getSessionsInRange l a b) ∧
    (∀ s, s ∈ getSessionsInRange l a b ↔
      s ∈ l ∧ intersectsRaw (dayFloor a) (dayCeil b) s = true) := by
  refine ⟨List.perm_insertionSort _ _, List.sorted_insertionSort _ _, ?_⟩
  intro s
  exact mem_getSessionsInRange

/-! ## C7: the days-worked count -/

theorem bumpDay_keys (m : List (Date × ℚ)) (k : Date) (v : ℚ) :
    (bumpDay m k v).map Prod.fst =
      if k ∈ m.map Prod.fst then m.map Prod.fst else m.map Prod.fst ++ [k] := by
  induction m with
  | nil => simp [bumpDay]
  | cons p rest ih =>
    unfold bumpDay
    by_cases hk : p.1 = k
    · simp [hk]
    · by_cases hm : k ∈ rest.map Prod.fst <;>
        simp [hk, Ne.symm hk, hm, ih]

theorem bumpDay_keys_nodup (m : List (Date × ℚ)) (k : Date) (v : ℚ)
    (h : (m.map Prod.fst).Nodup) : ((bumpDay m k v).map Prod.fst).Nodup := by
  rw [bumpDay_keys]
  split
  · exact h
  · next hk =>
    simp [List.nodup_append, h, hk]

theorem weekFold_len (ss : List Session) :
    ∀ (t : ℚ) (m : List (Date × ℚ)), (m.map Prod.fst).Nodup →
      ((ss.foldl weekStep (t, m)).2).length =
        ((m.map Prod.fst) ++
          ((ss.filter fun s => s.endTime.isSome).map fun s => s.date)).toFinset.card := by
  induction ss with
  | nil =>
    intro t m h
    simp only [List.foldl_nil, List.filter_nil, List.map_nil, List.append_nil]
    rw [List.card_toFinset, List.dedup_eq_self.mpr h, List.length_map]
  | cons s rest ih =>
    intro t m h
    cases he : s.endTime with
    | none =>
      simp only [List.foldl_cons, weekStep, he]
      rw [ih t m h]
      have hns : s.endTime.isSome = false := by rw [he]; rfl
      rw [show (List.filter (fun s => s.endTime.isSome) (s :: rest)) =
        List.filter (fun s => s.endTime.isSome) rest from
          List.filter_cons_of_neg (by rw [hns]; simp)]
    | some e =>
      simp only [List.foldl_cons, weekStep, he]
      rw [ih _ _ (bumpDay_keys_nodup _ _ _ h)]
      have hys : s.endTime.isSome = true := by rw [he]; rfl
      rw [show (List.filter (fun s => s.endTime.isSome) (s :: rest)) =
        s :: List.filter (fun s => s.endTime.isSome) rest from
          List.filter_cons_of_pos hys, List.map_cons, bumpDay_keys]
      congr 1
      split
      · next hin =>
        ext x
        simp only [List.mem_toFinset, List.mem_append, List.mem_cons]
        constructor
        · rintro (hx | hx)
          · exact Or.inl hx
          · exact Or.inr (Or.inr hx)
        · rintro (hx | hx | hx)
          · exact Or.inl hx
          · exact Or.inl (hx ▸ hin)
          · exact Or.inr hx
      · ext x
        simp only [List.mem_toFinset, List.mem_append, List.mem_cons,
          List.not_mem_nil, or_false]
        constructor
        · rintro ((hx | hx) | hx)
          · exact Or.inl hx
          · exact Or.inr (Or.inl hx)
          · exact Or.inr (Or.inr hx)
        · rintro (hx | hx | hx)
          · exact Or.inl (Or.inl hx)
          · exact Or.inl (Or.inr hx)
          · exact Or.inr hx

/-- C7 as amended: `DaysWorkedCount` is the number of distinct
attributed calendar dates among the week's fetched sessions that carry
at least one closed session - regardless of whether those sessions sum
to a nonzero duration. -/
theorem claim7_days_worked_count (goal : ℚ) (l : List Session) (ws : Timestamp) :
    (computeWeekProgress goal l ws).daysWorkedCount =
      (((getSessionsInRange l ws ⟨ws.date.addDays 6, ws.sod⟩).filter
          fun s => s.endTime.isSome).map fun s => s.date).toFinset.card := by
  simp only [computeWeekProgress]
  unfold weekFold
  rw [weekFold_len _ 0 [] (by simp)]
  simp

/-- Closed zero-duration session (start equals end, no break) for the
C7 counterexample. -/
def sessZero : Session :=
  ⟨"zero0000", dJan1, ⟨dJan1, 32400⟩, some ⟨dJan1, 32400⟩, 0, ""⟩

/-- Per-day duration sum of the fetched week, and the count of days of
the week whose closed sessions sum to a nonzero duration: the claim's
reading, modelled from the spec's words. -/
def dayDurSum (sessions : List Session) (d : Date) : ℚ :=
  sessions.foldl
    (fun acc s =>
      match s.endTime with
      | some e => if s.date = d then acc + sessionHours s.start e s.breakMinutes else acc
      | none => acc) 0

/-- The number of distinct calendar dates of the week whose closed
sessions sum to a nonzero duration (the claim's reading). -/
def specNonzeroDayCount (l : List Session) (ws : Timestamp) : Nat :=
  (((List.range 7).map fun i => ws.date.addDays i).filter
    fun d => !decide (dayDurSum (getSessionsInRange l ws ⟨ws.date.addDays 6, ws.sod⟩) d = 0)).length

/-- Counterexample to C7 as stated: a single closed zero-duration
session makes `DaysWorkedCount` 1, while no date of the week has a
nonzero closed-session sum. -/
theorem claim7_counterexample :
    (computeWeekProgress 38.5 [sessZero] ⟨dJan1, 0⟩).daysWorkedCount = 1 ∧
    specNonzeroDayCount [sessZero] ⟨dJan1, 0⟩ = 0 := by
  constructor
  · decide
  · have hrange : getSessionsInRange [sessZero] ⟨dJan1, 0⟩
        ⟨(⟨dJan1, 0⟩ : Timestamp).date.addDays 6, (⟨dJan1, 0⟩ : Timestamp).sod⟩ =
          [sessZero] := by decide
    have hsh : sessionHours ⟨dJan1, 32400⟩ ⟨dJan1, 32400⟩ 0 = 0 := by
      rw [sessionHours_same_date]
      norm_num
    have hdds : ∀ d, dayDurSum [sessZero] d = 0 := by
      intro d
      unfold dayDurSum
      simp only [List.foldl_cons, List.foldl_nil, sessZero]
      by_cases hd : dJan1 = d
      · subst hd
        simp [hsh]
      · simp [hd]
    unfold specNonzeroDayCount
    rw [hrange]
    simp [hdds]

/-! ## C1: the single-active-session invariant -/

theorem idOfNat_ne_empty (n : Nat) : idOfNat n ≠ "" := by
  unfold idOfNat
  intro h
  have := congrArg String.data h
  simp at this

theorem idOfNat_inj {m n : Nat} (h : idOfNat m = idOfNat n) : m = n := by
  unfold idOfNat at h
  have := congrArg (fun s => s.data.length) h
  simp at this
  exact this

/-- The machine invariant: at most one open row; every id was minted by
the counter; ids are distinct; every open row started on or before day
`d` (the last day the wall clock showed) with a sane second of day. -/
def Inv (st : TrackState) (d : Nat) : Prop :=
  activeCount st.ledger ≤ 1 ∧
  (∀ s ∈ st.ledger, ∃ k, k < st.nextN ∧ s.id = idOfNat k) ∧
  (st.ledger.map fun s => s.id).Nodup ∧
  (∀ s ∈ st.ledger, s.endTime = none →
    dateDays s.start.date ≤ d ∧ s.start.sod < 86400)

theorem inv_mono {st : TrackState} {d d' : Nat} (h : Inv st d) (hd : d ≤ d') :
    Inv st d' :=
  ⟨h.1, h.2.1, h.2.2.1, fun s hs he =>
    ⟨(h.2.2.2 s hs he).1.trans hd, (h.2.2.2 s hs he).2⟩⟩

theorem eq_of_mem_of_id_eq {l : List Session}
    (hnd : (l.map fun s => s.id).Nodup) {a b : Session}
    (ha : a ∈ l) (hb : b ∈ l) (hid : a.id = b.id) : a = b := by
  induction l with
  | nil => cases ha
  | cons x xs ih =>
    rw [List.map_cons] at hnd
    have hx := (List.nodup_cons.mp hnd).1
    have hxs := (List.nodup_cons.mp hnd).2
    rcases List.mem_cons.mp ha with rfl | ha' <;> rcases List.mem_cons.mp hb with rfl | hb'
    · rfl
    · exfalso
      apply hx
      rw [hid]
      exact List.mem_map_of_mem (fun s => s.id) hb'
    · exfalso
      apply hx
      rw [← hid]
      exact List.mem_map_of_mem (fun s => s.id) ha'
    · exact ih hxs ha' hb'

theorem getSessionByShortForm_mem {l : List Session} {pre : String} {s : Session}
    (h : getSessionByShortForm l pre = some s) : s ∈ l :=
  List.mem_of_find?_eq_some h

theorem getSessionByID_mem {l : List Session} {id : String} {s : Session}
    (h : getSessionByID l id = some s) : s ∈ l := by
  unfold getSessionByID at h
  cases hf : l.find? (fun t => decide (t.id = id)) with
  | some t =>
    rw [hf] at h
    injection h with h
    exact h ▸ List.mem_of_find?_eq_some hf
  | none =>
    rw [hf] at h
    by_cases hlen : 8 ≤ id.length
    · rw [if_pos hlen] at h
      exact getSessionByShortForm_mem h
    · rw [if_neg hlen] at h
      cases h

theorem getActiveSession_spec {l : List Session} {a : Session}
    (h : getActiveSession l = some a) : a ∈ l ∧ a.endTime = none := by
  unfold getActiveSession at h
  cases hl : List.insertionSort startGe (l.filter fun s => s.endTime.isNone) with
  | nil => rw [hl] at h; cases h
  | cons x xs =>
    rw [hl] at h
    injection h with h
    have hx : x ∈ List.insertionSort startGe (l.filter fun s => s.endTime.isNone) := by
      rw [hl]; exact List.mem_cons_self x xs
    rw [List.mem_insertionSort, List.mem_filter] at hx
    refine ⟨h ▸ hx.1, h ▸ ?_⟩
    have := hx.2
    rwa [Option.isNone_iff_eq_none] at this

theorem activeCount_append (l1 l2 : List Session) :
    activeCount (l1 ++ l2) = activeCount l1 + activeCount l2 := by
  simp [activeCount, List.filter_append]

theorem activeCount_eq_zero {l : List Session}
    (h : ∀ s ∈ l, s.endTime ≠ none) : activeCount l = 0 := by
  unfold activeCount
  rw [List.length_eq_zero]
  rw [List.filter_eq_nil_iff]
  intro s hs
  have := h s hs
  simp [Option.isNone_iff_eq_none, this]

theorem updateSession_ids (l : List Session) (s : Session) :
    ((updateSession l s).map fun t => t.id) = l.map fun t => t.id := by
  unfold updateSession
  rw [List.map_map]
  apply List.map_congr_left
  intro a _
  show (if a.id = s.id then _ else a).id = a.id
  split
  · next he => exact he.symm
  · rfl

theorem mem_updateSession {l : List Session} {s' t : Session}
    (h : t ∈ updateSession l s') :
    t ∈ l ∨ t = { s' with date := if s'.start = tsZero then s'.date else s'.start.date } := by
  unfold updateSession at h
  rcases List.mem_map.mp h with ⟨a, ha, rfl⟩
  by_cases he : a.id = s'.id
  · right; rw [if_pos he]
  · left; rw [if_neg he]; exact ha

theorem countP_eq_length_filter' (p : Session → Bool) (l : List Session) :
    (l.filter p).length = l.countP p :=
  (List.countP_eq_length_filter p l).symm

/-- Writing back a row found in the ledger can only close sessions, never
open one: the active count does not grow, and every surviving open row
keeps its recorded day bound. -/
theorem inv_update (st : TrackState) (d : Nat) (hInv : Inv st d)
    (s0 snew : Session) (hmem : s0 ∈ st.ledger) (hid : snew.id = s0.id)
    (himp : snew.endTime = none → s0.endTime = none)
    (hdate : snew.endTime = none →
      dateDays snew.start.date ≤ d ∧ snew.start.sod < 86400) :
    Inv { st with ledger := updateSession st.ledger snew } d := by
  obtain ⟨hcnt, hids, hnd, hbound⟩ := hInv
  have hrepl : ∀ a ∈ st.ledger,
      ((if a.id = snew.id then
        { snew with date := if snew.start = tsZero then snew.date else snew.start.date }
        else a) : Session).endTime.isNone = true → a.endTime.isNone = true := by
    intro a ha hact
    split at hact
    · next heq =>
      have hsnone : snew.endTime = none := by
        rwa [Option.isNone_iff_eq_none] at hact
      have ha0 : a = s0 :=
        eq_of_mem_of_id_eq hnd ha hmem (heq.trans hid)
      rw [ha0, Option.isNone_iff_eq_none]
      exact himp hsnone
    · exact hact
  refine ⟨?_, ?_, ?_, ?_⟩
  · show activeCount (updateSession st.ledger snew) ≤ 1
    refine le_trans ?_ hcnt
    unfold activeCount updateSession
    rw [countP_eq_length_filter', countP_eq_length_filter', List.countP_map]
    exact List.countP_mono_left hrepl
  · intro t ht
    rcases mem_updateSession ht with ht' | rfl
    · exact hids t ht'
    · obtain ⟨k, hk, hke⟩ := hids s0 hmem
      exact ⟨k, hk, by show snew.id = _; rw [hid, hke]⟩
  · show ((updateSession st.ledger snew).map fun t => t.id).Nodup
    rw [updateSession_ids]
    exact hnd
  · intro t ht hopen
    rcases mem_updateSession ht with ht' | rfl
    · exact hbound t ht' hopen
    · have hsnone : snew.endTime = none := hopen
      exact hdate hsnone

theorem inv_delete (st : TrackState) (d : Nat) (hInv : Inv st d) (id : String) :
    Inv { st with ledger := deleteSession st.ledger id } d := by
  obtain ⟨hcnt, hids, hnd, hbound⟩ := hInv
  have hsub : (deleteSession st.ledger id).Sublist st.ledger := List.filter_sublist _
  refine ⟨?_, ?_, ?_, ?_⟩
  · refine le_trans ?_ hcnt
    unfold activeCount
    rw [countP_eq_length_filter', countP_eq_length_filter']
    exact List.Sublist.countP_le _ hsub
  · exact fun t ht => hids t (hsub.subset ht)
  · exact List.Nodup.sublist (hsub.map _) hnd
  · exact fun t ht => hbound t (hsub.subset ht)

theorem clockInSession_id (now : Timestamp) (note ts : String) :
    (clockInSession now note ts).id = "" := by
  unfold clockInSession
  repeat' split
  all_goals rfl

theorem clockInSession_endTime (now : Timestamp) (note ts : String) :
    (clockInSession now note ts).endTime = none := by
  unfold clockInSession
  repeat' split
  all_goals rfl

theorem clockInSession_start (now : Timestamp) (note ts : String) (hv : now.Valid) :
    dateDays (clockInSession now note ts).start.date ≤ dateDays now.date ∧
      (clockInSession now note ts).start.sod < 86400 := by
  unfold clockInSession
  split
  · exact ⟨le_refl _, hv.2⟩
  · split
    · exact ⟨le_refl _, hv.2⟩
    · next tod heq =>
      have htod := parseClock_lt _ _ heq
      split
      · refine ⟨?_, htod⟩
        show dateDays now.date.prev ≤ dateDays now.date
        have := dateDays_prev now.date hv.1
        omega
      · exact ⟨le_refl _, htod⟩

/-- The `GetTodayProgress` fold reports a non-empty current session id
as soon as the fetched list holds an open row with a non-empty id. -/
theorem dayFold_current_ne (sessions : List Session) :
    ∀ init : DayProgress,
      (∀ s ∈ sessions, s.endTime = none → s.id ≠ "") →
      ((∃ s ∈ sessions, s.endTime = none) ∨ init.currentSessionID ≠ "") →
      (sessions.foldl dayStep init).currentSessionID ≠ "" := by
  induction sessions with
  | nil =>
    intro init _ hex
    rcases hex with ⟨s, hs, _⟩ | h
    · cases hs
    · exact h
  | cons s rest ih =>
    intro init hids hex
    rw [List.foldl_cons]
    apply ih (dayStep init s) (fun t ht => hids t (List.mem_cons_of_mem s ht))
    cases he : s.endTime with
    | none =>
      right
      show (dayStep init s).currentSessionID ≠ ""
      unfold dayStep
      rw [he]
      exact hids s (List.mem_cons_self s rest) he
    | some e =>
      rcases hex with ⟨t, ht, hte⟩ | hi
      · rcases List.mem_cons.mp ht with rfl | ht'
        · rw [he] at hte; cases hte
        · exact Or.inl ⟨t, ht', hte⟩
      · right
        show (dayStep init s).currentSessionID ≠ ""
        unfold dayStep
        rw [he]
        exact hi

/-- An open row whose start day precedes the current day is caught by
the today query's current-session check. -/
theorem today_catches_active {l : List Session} {now : Timestamp} {a : Session}
    (ha : a ∈ l) (hopen : a.endTime = none)
    (hsod : a.start.sod < 86400) (hdate : dateDays a.start.date ≤ dateDays now.date)
    (hids : ∀ s ∈ l, s.endTime = none → s.id ≠ "") :
    (getTodayProgress l now).currentSessionID ≠ "" := by
  have hmem : a ∈ getSessionsInRange l now now := by
    rw [mem_getSessionsInRange]
    refine ⟨ha, ?_⟩
    unfold inRange
    rw [hopen]
    have : tsLe a.start (dayCeil now) = true := by
      unfold tsLe dayCeil Timestamp.epochSecs
      apply decide_eq_true
      dsimp only
      omega
    rw [this]
    rfl
  unfold getTodayProgress
  apply dayFold_current_ne
  · intro s hs hse
    exact hids s (mem_getSessionsInRange.mp hs).1 hse
  · exact Or.inl ⟨a, hmem, hopen⟩

theorem inv_step_clockin (st : TrackState) (d : Nat) (now : Timestamp)
    (note ts : String) (hInv : Inv st d) (hv : now.Valid)
    (hd : d ≤ dateDays now.date) :
    Inv (step st (.clockin now note ts)) (dateDays now.date) := by
  obtain ⟨hcnt, hids, hnd, hbound⟩ := hInv
  show Inv (if (getTodayProgress st.ledger now).currentSessionID = "" then _ else st) _
  by_cases hg : (getTodayProgress st.ledger now).currentSessionID = ""
  · rw [if_pos hg]
    have hidne : ∀ s ∈ st.ledger, s.endTime = none → s.id ≠ "" := by
      intro s hs _
      obtain ⟨k, _, hk⟩ := hids s hs
      rw [hk]
      exact idOfNat_ne_empty k
    have hnoact : ∀ s ∈ st.ledger, s.endTime ≠ none := by
      intro s hs he
      exact today_catches_active hs he (hbound s hs he).2
        ((hbound s hs he).1.trans hd) hidne hg
    have hled : clockInWithTime st.ledger now note ts (idOfNat st.nextN) =
        st.ledger ++ [{ clockInSession now note ts with
          id := if (clockInSession now note ts).id = "" then idOfNat st.nextN
            else (clockInSession now note ts).id
          date := if (clockInSession now note ts).start = tsZero then
            (clockInSession now note ts).date
            else (clockInSession now note ts).start.date }] := rfl
    have hnewid : (if (clockInSession now note ts).id = "" then idOfNat st.nextN
        else (clockInSession now note ts).id) = idOfNat st.nextN := by
      rw [if_pos (clockInSession_id now note ts)]
    refine ⟨?_, ?_, ?_, ?_⟩
    · show activeCount (clockInWithTime st.ledger now note ts (idOfNat st.nextN)) ≤ 1
      rw [hled, activeCount_append, activeCount_eq_zero hnoact]
      unfold activeCount
      rw [Nat.zero_add]
      exact le_trans (List.length_filter_le _ _) (by simp)
    · intro t ht
      rw [hled] at ht
      rcases List.mem_append.mp ht with ht' | ht'
      · obtain ⟨k, hk, hke⟩ := hids t ht'
        exact ⟨k, Nat.lt_succ_of_lt hk, hke⟩
      · rw [List.mem_singleton] at ht'
        refine ⟨st.nextN, Nat.lt_succ_self _, ?_⟩
        rw [ht']
        exact hnewid
    · show ((clockInWithTime st.ledger now note ts (idOfNat st.nextN)).map
        fun s => s.id).Nodup
      rw [hled, List.map_append]
      rw [List.nodup_append]
      refine ⟨hnd, by simp, ?_⟩
      intro x hx
      rcases List.mem_map.mp hx with ⟨t, ht, rfl⟩
      obtain ⟨k, hk, hke⟩ := hids t ht
      simp only [List.map_cons, List.map_nil, List.mem_singleton]
      rw [hke, hnewid]
      intro hc
      exact absurd (idOfNat_inj hc) (Nat.ne_of_lt hk)
    · intro t ht hopen
      rw [hled] at ht
      rcases List.mem_append.mp ht with ht' | ht'
      · exact absurd hopen (hnoact t ht')
      · rw [List.mem_singleton] at ht'
        subst ht'
        exact clockInSession_start now note ts hv
  · rw [if_neg hg]
    exact inv_mono ⟨hcnt, hids, hnd, hbound⟩ hd

theorem inv_step_clockout (st : TrackState) (d : Nat) (now : Timestamp)
    (bm : Int) (ts : String) (hInv : Inv st d) :
    Inv (step st (.clockout now bm ts)) d := by
  show Inv (match getActiveSession st.ledger with
    | none => st
    | some a =>
      match clockOutWithTime st.ledger now a.id bm "" ts with
      | none => st
      | some (l', _) => { st with ledger := l' }) d
  cases ha : getActiveSession st.ledger with
  | none => exact hInv
  | some a =>
    dsimp only
    cases hf : getSessionByID st.ledger a.id with
    | none =>
      unfold clockOutWithTime
      rw [hf]
      exact hInv
    | some sess =>
      unfold clockOutWithTime
      rw [hf]
      exact inv_update st d hInv sess
        (closeSession sess (clockOutEnd sess.start now ts) bm "")
        (getSessionByID_mem hf) rfl (fun hc => by cases hc) (fun hc => by cases hc)

theorem editBreak_id (s : Session) (bm : Int) (c : Bool) : (editBreak s bm c).id = s.id := by
  unfold editBreak; split <;> rfl

theorem editBreak_start (s : Session) (bm : Int) (c : Bool) :
    (editBreak s bm c).start = s.start := by
  unfold editBreak; split <;> rfl

theorem editBreak_endTime (s : Session) (bm : Int) (c : Bool) :
    (editBreak s bm c).endTime = s.endTime := by
  unfold editBreak; split <;> rfl

theorem editNote_id (s : Session) (nt : String) (c : Bool) : (editNote s nt c).id = s.id := by
  unfold editNote; split <;> rfl

theorem editNote_start (s : Session) (nt : String) (c : Bool) :
    (editNote s nt c).start = s.start := by
  unfold editNote; split <;> rfl

theorem editNote_endTime (s : Session) (nt : String) (c : Bool) :
    (editNote s nt c).endTime = s.endTime := by
  unfold editNote; split <;> rfl

theorem editStart_id (s : Session) (str : String) : (editStart s str).id = s.id := by
  unfold editStart; repeat' split
  all_goals rfl

theorem editStart_endTime (s : Session) (str : String) :
    (editStart s str).endTime = s.endTime := by
  unfold editStart; repeat' split
  all_goals rfl

theorem editStart_start_date (s : Session) (str : String) :
    (editStart s str).start.date = s.start.date := by
  unfold editStart; repeat' split
  all_goals rfl

theorem editStart_sod (s : Session) (str : String) (h : s.start.sod < 86400) :
    (editStart s str).start.sod < 86400 := by
  unfold editStart
  repeat' split
  all_goals first
    | exact h
    | (apply parseClock_lt; assumption)

theorem editEnd_id (s : Session) (str : String) : (editEnd s str).id = s.id := by
  unfold editEnd; repeat' split
  all_goals rfl

theorem editEnd_start (s : Session) (str : String) : (editEnd s str).start = s.start := by
  unfold editEnd; repeat' split
  all_goals rfl

theorem editEnd_endTime_none (s : Session) (str : String)
    (h : (editEnd s str).endTime = none) : s.endTime = none := by
  unfold editEnd at h
  repeat' split at h
  all_goals first
    | exact h
    | cases h

theorem inv_step_edit (st : TrackState) (d : Nat) (id : String) (bm : Int)
    (bc : Bool) (nt : String) (nc : Bool) (ss es : String) (hInv : Inv st d) :
    Inv (step st (.editOp id bm bc nt nc ss es)) d := by
  show Inv (match editSessionSelective st.ledger id bm bc nt nc ss es with
    | none => st
    | some l' => { st with ledger := l' }) d
  cases hf : getSessionByID st.ledger id with
  | none =>
    unfold editSessionSelective
    rw [hf]
    exact hInv
  | some s0 =>
    unfold editSessionSelective
    rw [hf]
    have hid : (editEnd (editStart (editNote (editBreak s0 bm bc) nt nc) ss) es).id =
        s0.id := by
      rw [editEnd_id, editStart_id, editNote_id, editBreak_id]
    have hend : (editEnd (editStart (editNote (editBreak s0 bm bc) nt nc) ss) es).endTime =
        none → s0.endTime = none := by
      intro h
      have := editEnd_endTime_none _ _ h
      rwa [editStart_endTime, editNote_endTime, editBreak_endTime] at this
    refine inv_update st d hInv s0 _ (getSessionByID_mem hf) hid hend ?_
    intro hnone
    have hs0 := hend hnone
    obtain ⟨hdd, hsod⟩ := hInv.2.2.2 s0 (getSessionByID_mem hf) hs0
    constructor
    · rw [editEnd_start, editStart_start_date, editNote_start, editBreak_start]
      exact hdd
    · rw [editEnd_start]
      apply editStart_sod
      rw [editNote_start, editBreak_start]
      exact hsod

theorem inv_step_delete (st : TrackState) (d : Nat) (id : String) (hInv : Inv st d) :
    Inv (step st (.deleteOp id)) d :=
  inv_delete st d hInv id

theorem runOps_cons (st : TrackState) (op : Op) (rest : List Op) :
    runOps st (op :: rest) = runOps (step st op) rest := rfl

theorem nowsOK_append_left (l1 : List Op) :
    ∀ (l2 : List Op) (d : Nat), nowsOK d (l1 ++ l2) = true → nowsOK d l1 = true := by
  induction l1 with
  | nil => intro _ _ _; rfl
  | cons op rest ih =>
    intro l2 d h
    rw [List.cons_append] at h
    unfold nowsOK at h ⊢
    cases hop : nowOf op with
    | none =>
      rw [hop] at h
      exact ih l2 d h
    | some t =>
      rw [hop] at h
      dsimp only at h ⊢
      rw [Bool.and_eq_true, Bool.and_eq_true] at h
      rw [Bool.and_eq_true, Bool.and_eq_true]
      exact ⟨h.1, ih l2 _ h.2⟩

theorem inv_run (ops : List Op) :
    ∀ (st : TrackState) (d : Nat), Inv st d → nowsOK d ops = true →
      ∃ d', Inv (runOps st ops) d' := by
  induction ops with
  | nil => exact fun st d h _ => ⟨d, h⟩
  | cons op rest ih =>
    intro st d hInv hok
    rw [runOps_cons]
    cases op with
    | clockin now note ts =>
      unfold nowsOK at hok
      rw [show nowOf (.clockin now note ts) = some now from rfl] at hok
      dsimp only at hok
      rw [Bool.and_eq_true, Bool.and_eq_true] at hok
      obtain ⟨⟨hv, hd⟩, hrest⟩ := hok
      exact ih _ (dateDays now.date)
        (inv_step_clockin st d now note ts hInv (of_decide_eq_true hv)
          (of_decide_eq_true hd)) hrest
    | clockout now bm ts =>
      unfold nowsOK at hok
      rw [show nowOf (.clockout now bm ts) = some now from rfl] at hok
      dsimp only at hok
      rw [Bool.and_eq_true, Bool.and_eq_true] at hok
      obtain ⟨⟨_, hd⟩, hrest⟩ := hok
      exact ih _ (dateDays now.date)
        (inv_mono (inv_step_clockout st d now bm ts hInv) (of_decide_eq_true hd)) hrest
    | editOp id bm bc nt nc ss es =>
      exact ih _ d (inv_step_edit st d id bm bc nt nc ss es hInv) hok
    | deleteOp id =>
      exact ih _ d (inv_step_delete st d id hInv) hok

/-- C1: starting from the empty store, any sequence of command-layer
operations run under a sane wall clock (valid instants, day count never
going backwards) leaves at most one open session in the ledger - and
this holds at every point of the sequence, i.e. after every prefix. -/
theorem claim1_single_active (ops pre suf : List Op) (hsplit : ops = pre ++ suf)
    (hok : nowsOK 0 ops = true) :
    activeCount (runOps initState pre).ledger ≤ 1 := by
  subst hsplit
  have hpre := nowsOK_append_left pre suf 0 hok
  have hInv0 : Inv initState 0 := by
    refine ⟨?_, ?_, ?_, ?_⟩
    · show activeCount [] ≤ 1
      decide
    · intro s hs
      cases hs
    · show (([] : List Session).map fun s => s.id).Nodup
      simp
    · intro s hs
      cases hs
  obtain ⟨d', hInv'⟩ := inv_run pre initState 0 hInv0 hpre
  exact hInv'.1

/-- Witness for C1: a concrete run - clock in, clock out, then a second
clock-in attempt while another session is still open the next day -
ends with at most one open session. -/
theorem claim1_single_active_witness :
    activeCount (runOps initState
      [.clockin ⟨dJan1, 30000⟩ "a" "", .clockout ⟨dJan1, 60000⟩ 30 "",
        .clockin ⟨dJan1, 70000⟩ "b" "", .clockin ⟨dJan2, 40000⟩ "c" ""]).ledger ≤ 1 :=
  claim1_single_active
    [.clockin ⟨dJan1, 30000⟩ "a" "", .clockout ⟨dJan1, 60000⟩ 30 "",
      .clockin ⟨dJan1, 70000⟩ "b" "", .clockin ⟨dJan2, 40000⟩ "c" ""]
    [.clockin ⟨dJan1, 30000⟩ "a" "", .clockout ⟨dJan1, 60000⟩ 30 "",
      .clockin ⟨dJan1, 70000⟩ "b" "", .clockin ⟨dJan2, 40000⟩ "c" ""]
    [] (by simp) (by decide)

/-! ## C3: the auto-archive walk -/

/-- Days from the civil epoch to the first day of month `(y, m)`. -/
def monthStartDays (y m : Nat) : Nat := daysBeforeYear y + daysBeforeMonth y m

/-- Days from the epoch to the first day of the month of linear index
`i`. -/
def gIdx (i : Nat) : Nat := monthStartDays (ymOfIdx i).1 (ymOfIdx i).2

theorem ymIdx_div (y m : Nat) (h1 : 1 ≤ m) (h2 : m ≤ 12) : ymIdx y m / 12 = y := by
  unfold ymIdx
  omega

theorem ymIdx_mod (y m : Nat) (h1 : 1 ≤ m) (h2 : m ≤ 12) : ymIdx y m % 12 + 1 = m := by
  unfold ymIdx
  omega

theorem ymIdx_ge (d : Date) (hv : d.Valid) : 12 ≤ ymIdx d.year d.month := by
  obtain ⟨hy, hm1, hm2, _, _⟩ := hv
  unfold ymIdx
  omega

theorem gIdx_succ (i : Nat) (hi : 12 ≤ i) :
    gIdx (i + 1) = gIdx i + daysInMonth (i / 12) (i % 12 + 1) := by
  unfold gIdx ymOfIdx monthStartDays
  dsimp only
  by_cases h : i % 12 = 11
  · have hy : (i + 1) / 12 = i / 12 + 1 := by omega
    have hm : (i + 1) % 12 = 0 := by omega
    rw [hy, hm, h]
    rw [daysBeforeMonth_one, daysBeforeYear_succ (i / 12) (by omega)]
    have h13 := daysBeforeMonth_thirteen (i / 12)
    have h1213 : daysBeforeMonth (i / 12) 13 =
        daysBeforeMonth (i / 12) 12 + daysInMonth (i / 12) 12 :=
      daysBeforeMonth_succ (i / 12) 12 (by omega)
    have h12 : (11 : Nat) + 1 = 12 := rfl
    rw [h12]
    omega
  · have hy : (i + 1) / 12 = i / 12 := by omega
    have hm : (i + 1) % 12 = i % 12 + 1 := by omega
    rw [hy, hm]
    rw [daysBeforeMonth_succ (i / 12) (i % 12 + 1) (by omega)]
    omega

theorem gIdx_mono {i j : Nat} (hi : 12 ≤ i) (hij : i ≤ j) : gIdx i ≤ gIdx j := by
  induction j, hij using Nat.le_induction with
  | base => exact le_refl _
  | succ n hn ihn =>
    refine le_trans ihn ?_
    rw [gIdx_succ n (by omega)]
    omega

theorem gIdx_strict {i j : Nat} (hi : 12 ≤ i) (hij : i < j) :
    gIdx i + daysInMonth (i / 12) (i % 12 + 1) ≤ gIdx j := by
  rw [← gIdx_succ i hi]
  exact gIdx_mono (by omega) hij

theorem dateDays_between (d : Date) (hv : d.Valid) :
    gIdx (ymIdx d.year d.month) ≤ dateDays d ∧
      dateDays d < gIdx (ymIdx d.year d.month) + daysInMonth d.year d.month := by
  obtain ⟨hy, hm1, hm2, hd1, hd2⟩ := hv
  have hdiv := ymIdx_div d.year d.month hm1 hm2
  have hmod := ymIdx_mod d.year d.month hm1 hm2
  have hg : gIdx (ymIdx d.year d.month) = monthStartDays d.year d.month := by
    unfold gIdx ymOfIdx
    rw [hdiv, hmod]
  rw [hg]
  unfold monthStartDays dateDays
  omega

/-- Months are ordered consistently with instants: an earlier (or equal)
valid instant lies in an earlier (or the same) month. -/
theorem ymIdx_le_of_le {a b : Timestamp} (hva : a.Valid) (hvb : b.Valid)
    (h : a.epochSecs ≤ b.epochSecs) :
    ymIdx a.date.year a.date.month ≤ ymIdx b.date.year b.date.month := by
  by_contra hc
  push_neg at hc
  obtain ⟨hb1, hb2⟩ := dateDays_between b.date hvb.1
  obtain ⟨ha1, ha2⟩ := dateDays_between a.date hva.1
  have hdivb := ymIdx_div b.date.year b.date.month hvb.1.2.1 hvb.1.2.2.1
  have hmodb := ymIdx_mod b.date.year b.date.month hvb.1.2.1 hvb.1.2.2.1
  have hstep := gIdx_strict (ymIdx_ge b.date hvb.1) hc
  rw [hdivb, hmodb] at hstep
  have hdd : dateDays b.date < dateDays a.date := by omega
  have : b.epochSecs < a.epochSecs := by
    unfold Timestamp.epochSecs
    have := hvb.2
    omega
  omega

theorem minStartAcc_foldl_some (l : List Session) (t : Timestamp) :
    ∃ u, l.foldl minStartAcc (some t) = some u ∧
      (u = t ∨ ∃ s ∈ l, s.start = u) ∧ u.epochSecs ≤ t.epochSecs ∧
      ∀ s ∈ l, u.epochSecs ≤ s.start.epochSecs := by
  induction l generalizing t with
  | nil => exact ⟨t, rfl, Or.inl rfl, le_refl _, by simp⟩
  | cons s rest ih =>
    rw [List.foldl_cons]
    unfold minStartAcc
    dsimp only
    by_cases h : s.start.epochSecs < t.epochSecs
    · rw [if_pos h]
      obtain ⟨u, he, hmem, hle, hall⟩ := ih s.start
      refine ⟨u, he, ?_, by omega, ?_⟩
      · rcases hmem with rfl | ⟨r, hr, hru⟩
        · exact Or.inr ⟨s, by simp, rfl⟩
        · exact Or.inr ⟨r, by simp [hr], hru⟩
      · intro r hr
        rcases List.mem_cons.mp hr with rfl | hr'
        · omega
        · exact hall r hr'
    · rw [if_neg h]
      obtain ⟨u, he, hmem, hle, hall⟩ := ih t
      refine ⟨u, he, ?_, hle, ?_⟩
      · rcases hmem with rfl | ⟨r, hr, hru⟩
        · exact Or.inl rfl
        · exact Or.inr ⟨r, by simp [hr], hru⟩
      · intro r hr
        rcases List.mem_cons.mp hr with rfl | hr'
        · omega
        · exact hall r hr'

theorem oldestSessionStart_mem {l : List Session} {t : Timestamp}
    (h : oldestSessionStart l = some t) : ∃ s ∈ l, s.start = t := by
  cases l with
  | nil => exact absurd h (by simp [oldestSessionStart])
  | cons s rest =>
    unfold oldestSessionStart at h
    rw [List.foldl_cons] at h
    obtain ⟨u, he, hmem, _, _⟩ := minStartAcc_foldl_some rest s.start
    rw [show minStartAcc none s = some s.start from rfl, he] at h
    injection h with h
    subst h
    rcases hmem with rfl | ⟨r, hr, hru⟩
    · exact ⟨s, by simp, rfl⟩
    · exact ⟨r, by simp [hr], hru⟩

theorem oldestSessionStart_le {l : List Session} {t : Timestamp}
    (h : oldestSessionStart l = some t) :
    ∀ s ∈ l, t.epochSecs ≤ s.start.epochSecs := by
  cases l with
  | nil => simp
  | cons s rest =>
    unfold oldestSessionStart at h
    rw [List.foldl_cons] at h
    obtain ⟨u, he, _, hle, hall⟩ := minStartAcc_foldl_some rest s.start
    rw [show minStartAcc none s = some s.start from rfl, he] at h
    injection h with h
    subst h
    intro r hr
    rcases List.mem_cons.mp hr with rfl | hr'
    · exact hle
    · exact hall r hr'

theorem oldestSessionStart_eq_none {l : List Session}
    (h : oldestSessionStart l = none) : l = [] := by
  cases l with
  | nil => rfl
  | cons s rest =>
    unfold oldestSessionStart at h
    rw [List.foldl_cons] at h
    obtain ⟨u, he, _, _, _⟩ := minStartAcc_foldl_some rest s.start
    rw [show minStartAcc none s = some s.start from rfl, he] at h
    exact absurd h (by simp)

theorem getSessionsInRange_nil_iff {l : List Session} {a b : Timestamp} :
    getSessionsInRange l a b = [] ↔
      l.filter (inRange (dayFloor a) (dayCeil b)) = [] := by
  unfold getSessionsInRange
  constructor
  · intro h
    have hlen := (List.perm_insertionSort startLe
      (l.filter (inRange (dayFloor a) (dayCeil b)))).length_eq
    rw [h] at hlen
    exact List.eq_nil_of_length_eq_zero hlen.symm
  · intro h
    rw [h]
    rfl

theorem getSessionsInRange_nil_of_sublist {l l' : List Session} {a b : Timestamp}
    (hsub : l'.Sublist l) (h : getSessionsInRange l a b = []) :
    getSessionsInRange l' a b = [] := by
  rw [getSessionsInRange_nil_iff] at h ⊢
  have := (hsub.filter (inRange (dayFloor a) (dayCeil b)))
  rw [h] at this
  exact List.sublist_nil.mp this

theorem recordName_mem_filesAfterWrite (files : List String) (y m : Nat) :
    recordName y m ∈ filesAfterWrite files y m := by
  unfold filesAfterWrite
  by_cases h : recordName y m ∈ files
  · rw [if_pos h]; exact h
  · rw [if_neg h]; simp

theorem mem_filesAfterWrite {files : List String} {f : String} (y m : Nat)
    (h : f ∈ files) : f ∈ filesAfterWrite files y m := by
  unfold filesAfterWrite
  by_cases hc : recordName y m ∈ files
  · rw [if_pos hc]; exact h
  · rw [if_neg hc]; simp [h]

theorem archiveMonth_files_super (io : IoOracle) (st : ArchState) (y m : Nat)
    (c : Bool) {f : String} (h : f ∈ st.files) :
    f ∈ (archiveMonth io st y m c).1.files := by
  unfold archiveMonth
  repeat' split
  all_goals first
    | exact h
    | exact mem_filesAfterWrite y m h

theorem archiveMonth_ledger_sub (io : IoOracle) (st : ArchState) (y m : Nat)
    (c : Bool) : (archiveMonth io st y m c).1.ledger.Sublist st.ledger := by
  unfold archiveMonth
  repeat' split
  all_goals first
    | exact List.Sublist.refl _
    | exact List.filter_sublist _

theorem archiveMonth_fetchFail (io : IoOracle) (st : ArchState) (y m : Nat)
    (c : Bool) (h : io.fetchOk = false) :
    archiveMonth io st y m c = (st, .error .fetchFailed) := by
  unfold archiveMonth
  rw [if_pos h]

theorem archiveMonth_of_empty (io : IoOracle) (st : ArchState) (y m : Nat)
    (c : Bool) (hio : io.fetchOk = true)
    (h : getSessionsInRange st.ledger (monthFirst y m) (monthLast y m) = []) :
    archiveMonth io st y m c = (st, .error (.emptyMonth y m)) := by
  unfold archiveMonth
  rw [if_neg (by rw [hio]; simp), if_pos (by rw [h]; rfl)]

theorem archiveMonth_allOk_of_nonempty (st : ArchState) (y m : Nat)
    (h : ¬ getSessionsInRange st.ledger (monthFirst y m) (monthLast y m) = []) :
    archiveMonth allOk st y m true =
      (⟨deleteSessionsInRange st.ledger (monthFirst y m) (monthLast y m),
        filesAfterWrite st.files y m⟩, .ok ()) := by
  unfold archiveMonth
  rw [if_neg (by simp [allOk]), if_neg (by simpa [List.isEmpty_iff] using h),
    if_neg (by simp [allOk]), if_neg (by simp [allOk]), if_pos rfl,
    if_neg (by simp [allOk])]

theorem archiveMonth_ok_record {io : IoOracle} {st st' : ArchState} {y m : Nat}
    {c : Bool} {u : Unit} (h : archiveMonth io st y m c = (st', .ok u)) :
    recordName y m ∈ st'.files := by
  unfold archiveMonth at h
  repeat' split at h
  all_goals injection h with h1 h2
  all_goals first
    | exact Except.noConfusion h2
    | (rw [← h1]; exact recordName_mem_filesAfterWrite _ y m)

theorem autoLoop_files_super (io : Nat → Nat → IoOracle) (ms : List (Nat × Nat))
    (st : ArchState) (acc : List String) {f : String} (h : f ∈ st.files) :
    f ∈ (autoLoop io ms st acc).1.files := by
  induction ms generalizing st acc with
  | nil => exact h
  | cons ym rest ih =>
    simp only [autoLoop]
    by_cases hmem : recordName ym.1 ym.2 ∈ st.files
    · rw [if_pos hmem]
      exact ih st acc h
    · rw [if_neg hmem]
      rcases harch : archiveMonth (io ym.1 ym.2) st ym.1 ym.2 true with ⟨st', res⟩
      have hsup := archiveMonth_files_super (io ym.1 ym.2) st ym.1 ym.2 true h
      rw [harch] at hsup
      cases res with
      | ok u =>
        dsimp only
        exact ih st' (acc ++ [recordName ym.1 ym.2]) hsup
      | error e =>
        dsimp only
        by_cases he : e.isEmptyMonth = true
        · rw [if_pos he]
          exact ih st' acc hsup
        · rw [if_neg he]
          exact hsup

theorem autoLoop_ledger_sub (io : Nat → Nat → IoOracle) (ms : List (Nat × Nat))
    (st : ArchState) (acc : List String) :
    (autoLoop io ms st acc).1.ledger.Sublist st.ledger := by
  induction ms generalizing st acc with
  | nil => exact List.Sublist.refl _
  | cons ym rest ih =>
    simp only [autoLoop]
    by_cases hmem : recordName ym.1 ym.2 ∈ st.files
    · rw [if_pos hmem]
      exact ih st acc
    · rw [if_neg hmem]
      rcases harch : archiveMonth (io ym.1 ym.2) st ym.1 ym.2 true with ⟨st', res⟩
      have hsub := archiveMonth_ledger_sub (io ym.1 ym.2) st ym.1 ym.2 true
      rw [harch] at hsub
      cases res with
      | ok u =>
        dsimp only
        exact List.Sublist.trans (ih st' (acc ++ [recordName ym.1 ym.2])) hsub
      | error e =>
        dsimp only
        by_cases he : e.isEmptyMonth = true
        · rw [if_pos he]
          exact List.Sublist.trans (ih st' acc) hsub
        · rw [if_neg he]
          exact hsub

/-- Over a stretch of months each already archived or empty, the walk
changes nothing and archives nothing, whatever the oracle does. -/
theorem autoLoop_stable (io : Nat → Nat → IoOracle) (ms : List (Nat × Nat))
    (st : ArchState) (acc : List String)
    (h : ∀ ym ∈ ms, recordName ym.1 ym.2 ∈ st.files ∨
      getSessionsInRange st.ledger (monthFirst ym.1 ym.2) (monthLast ym.1 ym.2) = []) :
    (autoLoop io ms st acc).1 = st ∧ (autoLoop io ms st acc).2.1 = acc := by
  induction ms generalizing acc with
  | nil => exact ⟨rfl, rfl⟩
  | cons ym rest ih =>
    have hrest : ∀ ym' ∈ rest, recordName ym'.1 ym'.2 ∈ st.files ∨
        getSessionsInRange st.ledger (monthFirst ym'.1 ym'.2) (monthLast ym'.1 ym'.2) = [] :=
      fun ym' hm => h ym' (List.mem_cons_of_mem _ hm)
    simp only [autoLoop]
    by_cases hmem : recordName ym.1 ym.2 ∈ st.files
    · rw [if_pos hmem]
      exact ih acc hrest
    · rw [if_neg hmem]
      have hemp : getSessionsInRange st.ledger (monthFirst ym.1 ym.2)
          (monthLast ym.1 ym.2) = [] :=
        (h ym (List.mem_cons_self _ _)).resolve_left hmem
      by_cases hf : (io ym.1 ym.2).fetchOk = true
      · rw [archiveMonth_of_empty (io ym.1 ym.2) st ym.1 ym.2 true hf hemp]
        dsimp only
        rw [if_pos (show (ArchiveError.emptyMonth ym.1 ym.2).isEmptyMonth = true from rfl)]
        exact ih acc hrest
      · rw [archiveMonth_fetchFail (io ym.1 ym.2) st ym.1 ym.2 true
          (Bool.not_eq_true _ ▸ hf)]
        dsimp only
        rw [if_neg (show ¬ ArchiveError.fetchFailed.isEmptyMonth = true by simp [ArchiveError.isEmptyMonth])]
        exact ⟨rfl, rfl⟩

/-- After a walk with every call succeeding, every visited month has its
record on file or no sessions left in the ledger. -/
theorem autoLoop_allOk_post (ms : List (Nat × Nat)) (st : ArchState)
    (acc : List String) :
    ∀ ym ∈ ms,
      recordName ym.1 ym.2 ∈ (autoLoop (fun _ _ => allOk) ms st acc).1.files ∨
      getSessionsInRange (autoLoop (fun _ _ => allOk) ms st acc).1.ledger
        (monthFirst ym.1 ym.2) (monthLast ym.1 ym.2) = [] := by
  induction ms generalizing st acc with
  | nil => simp
  | cons ym rest ih =>
    intro ym' hym'
    simp only [autoLoop]
    by_cases hmem : recordName ym.1 ym.2 ∈ st.files
    · rw [if_pos hmem]
      rcases List.mem_cons.mp hym' with rfl | hr
      · exact Or.inl (autoLoop_files_super _ rest st acc hmem)
      · exact ih st acc ym' hr
    · rw [if_neg hmem]
      by_cases hemp : getSessionsInRange st.ledger (monthFirst ym.1 ym.2)
          (monthLast ym.1 ym.2) = []
      · rw [show archiveMonth ((fun _ _ => allOk) ym.1 ym.2) st ym.1 ym.2 true =
            (st, .error (.emptyMonth ym.1 ym.2)) from
          archiveMonth_of_empty allOk st ym.1 ym.2 true rfl hemp]
        dsimp only
        rw [if_pos (show (ArchiveError.emptyMonth ym.1 ym.2).isEmptyMonth = true from rfl)]
        rcases List.mem_cons.mp hym' with rfl | hr
        · exact Or.inr (getSessionsInRange_nil_of_sublist
            (autoLoop_ledger_sub _ rest st acc) hemp)
        · exact ih st acc ym' hr
      · rw [show archiveMonth ((fun _ _ => allOk) ym.1 ym.2) st ym.1 ym.2 true =
            (⟨deleteSessionsInRange st.ledger (monthFirst ym.1 ym.2) (monthLast ym.1 ym.2),
              filesAfterWrite st.files ym.1 ym.2⟩, .ok ()) from
          archiveMonth_allOk_of_nonempty st ym.1 ym.2 hemp]
        dsimp only
        rcases List.mem_cons.mp hym' with rfl | hr
        · exact Or.inl (autoLoop_files_super _ rest _ _
            (recordName_mem_filesAfterWrite st.files ym'.1 ym'.2))
        · exact ih _ _ ym' hr

/-- A name already on file when the walk starts is never reported as
newly archived: each month's record is checked against the directory
before any archiving. -/
theorem autoLoop_no_rearchive (io : Nat → Nat → IoOracle) (ms : List (Nat × Nat))
    (st : ArchState) (acc : List String) {f : String} (hf : f ∈ st.files)
    (hacc : f ∉ acc) : f ∉ (autoLoop io ms st acc).2.1 := by
  induction ms generalizing st acc with
  | nil => exact hacc
  | cons ym rest ih =>
    simp only [autoLoop]
    by_cases hmem : recordName ym.1 ym.2 ∈ st.files
    · rw [if_pos hmem]
      exact ih st acc hf hacc
    · rw [if_neg hmem]
      rcases harch : archiveMonth (io ym.1 ym.2) st ym.1 ym.2 true with ⟨st', res⟩
      have hsup := archiveMonth_files_super (io ym.1 ym.2) st ym.1 ym.2 true hf
      rw [harch] at hsup
      cases res with
      | ok u =>
        dsimp only
        refine ih st' (acc ++ [recordName ym.1 ym.2]) hsup ?_
        intro hin
        rcases List.mem_append.mp hin with hin | hin
        · exact hacc hin
        · rw [List.mem_singleton] at hin
          exact hmem (hin ▸ hf)
      | error e =>
        dsimp only
        by_cases he : e.isEmptyMonth = true
        · rw [if_pos he]
          exact ih st' acc hsup hacc
        · rw [if_neg he]
          exact hacc

/-- Every name the walk reports as archived is present in the final
directory state, even when the walk aborts part-way. -/
theorem autoLoop_acc_sub_files (io : Nat → Nat → IoOracle) (ms : List (Nat × Nat))
    (st : ArchState) (acc : List String) (h : ∀ f ∈ acc, f ∈ st.files) :
    ∀ f ∈ (autoLoop io ms st acc).2.1, f ∈ (autoLoop io ms st acc).1.files := by
  induction ms generalizing st acc with
  | nil => exact h
  | cons ym rest ih =>
    simp only [autoLoop]
    by_cases hmem : recordName ym.1 ym.2 ∈ st.files
    · rw [if_pos hmem]
      exact ih st acc h
    · rw [if_neg hmem]
      rcases harch : archiveMonth (io ym.1 ym.2) st ym.1 ym.2 true with ⟨st', res⟩
      have hsup : ∀ f ∈ acc, f ∈ st'.files := by
        intro f hfacc
        have := archiveMonth_files_super (io ym.1 ym.2) st ym.1 ym.2 true (h f hfacc)
        rw [harch] at this
        exact this
      cases res with
      | ok u =>
        dsimp only
        refine ih st' (acc ++ [recordName ym.1 ym.2]) ?_
        intro f hfin
        rcases List.mem_append.mp hfin with hfin | hfin
        · exact hsup f hfin
        · rw [List.mem_singleton] at hfin
          exact hfin ▸ archiveMonth_ok_record harch
      | error e =>
        dsimp only
        by_cases he : e.isEmptyMonth = true
        · rw [if_pos he]
          exact ih st' acc hsup
        · rw [if_neg he]
          exact hsup

/-- A later starting index walks a subset of the months. -/
theorem monthsFromTo_subset {o o' c : Nat} (h : o ≤ o') {ym : Nat × Nat}
    (hm : ym ∈ monthsFromTo o' c) : ym ∈ monthsFromTo o c := by
  unfold monthsFromTo at hm ⊢
  simp only [List.mem_map, List.mem_range] at hm ⊢
  obtain ⟨k, hk, rfl⟩ := hm
  exact ⟨o' + k - o, by omega, by congr 1; omega⟩

/-- A month whose record is already on file is never reported as newly
archived by the full walk. -/
theorem auto_no_rearchive (io : Nat → Nat → IoOracle) (st : ArchState)
    (now : Timestamp) {y m : Nat} (h : recordName y m ∈ st.files) :
    recordName y m ∉ (autoArchivePastMonths io st now).2.1 := by
  unfold autoArchivePastMonths
  rcases hold : oldestSessionStart st.ledger with _ | t
  · simp
  · exact autoLoop_no_rearchive io _ st [] h (by simp)

/-- Every month the full walk reports as archived has its record in the
final directory state. -/
theorem auto_partial (io : Nat → Nat → IoOracle) (st : ArchState) (now : Timestamp) :
    ∀ f ∈ (autoArchivePastMonths io st now).2.1,
      f ∈ (autoArchivePastMonths io st now).1.files := by
  unfold autoArchivePastMonths
  rcases hold : oldestSessionStart st.ledger with _ | t
  · simp
  · exact autoLoop_acc_sub_files io _ st [] (by simp)

/-- Under succeeding calls, the walk is idempotent: a second run reports
no newly archived month. -/
theorem auto_idem (st : ArchState) (now : Timestamp)
    (hv : ∀ s ∈ st.ledger, s.start.Valid) :
    (autoArchivePastMonths (fun _ _ => allOk)
      (autoArchivePastMonths (fun _ _ => allOk) st now).1 now).2.1 = [] := by
  rcases hold : oldestSessionStart st.ledger with _ | t
  · have h1 : (autoArchivePastMonths (fun _ _ => allOk) st now).1 = st := by
      unfold autoArchivePastMonths
      rw [hold]
    rw [h1]
    unfold autoArchivePastMonths
    rw [hold]
  · have h1 : (autoArchivePastMonths (fun _ _ => allOk) st now).1 =
        (autoLoop (fun _ _ => allOk)
          (monthsFromTo (ymIdx t.date.year t.date.month)
            (ymIdx now.date.year now.date.month)) st []).1 := by
      unfold autoArchivePastMonths
      rw [hold]
    rw [h1]
    have hpost := autoLoop_allOk_post
      (monthsFromTo (ymIdx t.date.year t.date.month)
        (ymIdx now.date.year now.date.month)) st []
    have hsub := autoLoop_ledger_sub (fun _ _ => allOk)
      (monthsFromTo (ymIdx t.date.year t.date.month)
        (ymIdx now.date.year now.date.month)) st []
    obtain ⟨s0, hs0, hts0⟩ := oldestSessionStart_mem hold
    unfold autoArchivePastMonths
    rcases hold1 : oldestSessionStart (autoLoop (fun _ _ => allOk)
        (monthsFromTo (ymIdx t.date.year t.date.month)
          (ymIdx now.date.year now.date.month)) st []).1.ledger with _ | t1
    · rfl
    · obtain ⟨s1, hs1, hts1⟩ := oldestSessionStart_mem hold1
      have hmem1 : s1 ∈ st.ledger := hsub.subset hs1
      have hvt : t.Valid := hts0 ▸ hv s0 hs0
      have hvt1 : t1.Valid := hts1 ▸ hv s1 hmem1
      have hle : t.epochSecs ≤ t1.epochSecs :=
        hts1 ▸ oldestSessionStart_le hold s1 hmem1
      have hoo : ymIdx t.date.year t.date.month ≤ ymIdx t1.date.year t1.date.month :=
        ymIdx_le_of_le hvt hvt1 hle
      exact (autoLoop_stable (fun _ _ => allOk) _ _ []
        (fun ym hm => hpost ym (monthsFromTo_subset hoo hm))).2

/-- C3: on a ledger of valid sessions, running `autoArchivePastMonths`
twice in succession under succeeding calls reports no newly archived
month the second time; a month whose record is already on file is never
reported as newly archived, whatever the oracle does; a walked month
with no sessions and a working fetch is skipped silently, leaving state
and archive list unchanged; and any other failure of a walked month
aborts the walk, returning the months archived so far plus the error
(each of which stays on file by the third conjunct). -/
theorem claim3_auto_archive (st : ArchState) (now : Timestamp)
    (hv : ∀ s ∈ st.ledger, s.start.Valid) :
    (autoArchivePastMonths (fun _ _ => allOk)
        (autoArchivePastMonths (fun _ _ => allOk) st now).1 now).2.1 = [] ∧
    (∀ io y m, recordName y m ∈ st.files →
        recordName y m ∉ (autoArchivePastMonths io st now).2.1) ∧
    (∀ io, ∀ f ∈ (autoArchivePastMonths io st now).2.1,
        f ∈ (autoArchivePastMonths io st now).1.files) ∧
    (∀ io y m rest acc, recordName y m ∉ st.files →
        (io y m).fetchOk = true →
        getSessionsInRange st.ledger (monthFirst y m) (monthLast y m) = [] →
        autoLoop io ((y, m) :: rest) st acc = autoLoop io rest st acc) ∧
    (∀ io y m rest acc st' e, recordName y m ∉ st.files →
        archiveMonth (io y m) st y m true = (st', Except.error e) →
        e.isEmptyMonth = false →
        autoLoop io ((y, m) :: rest) st acc = (st', acc, some e)) := by
  refine ⟨auto_idem st now hv, fun io y m h => auto_no_rearchive io st now h,
    fun io => auto_partial io st now, ?_, ?_⟩
  · intro io y m rest acc hmem hf hemp
    simp only [autoLoop]
    rw [if_neg hmem, archiveMonth_of_empty (io y m) st y m true hf hemp]
    dsimp only
    rw [if_pos (show (ArchiveError.emptyMonth y m).isEmptyMonth = true from rfl)]
  · intro io y m rest acc st' e hmem harch hne
    simp only [autoLoop]
    rw [if_neg hmem, harch]
    dsimp only
    rw [if_neg (by simp [hne])]

/-- The C3 hypothesis holds and the idempotence conjunct evaluates at a
one-session March-archive scenario. -/
theorem claim3_auto_archive_witness :
    (∀ s ∈ (ArchState.mk [sessJan1] []).ledger, s.start.Valid) ∧
    (autoArchivePastMonths (fun _ _ => allOk)
        (autoArchivePastMonths (fun _ _ => allOk) (ArchState.mk [sessJan1] [])
          ⟨⟨2024, 3, 5⟩, 0⟩).1 ⟨⟨2024, 3, 5⟩, 0⟩).2.1 = [] :=
  ⟨by decide,
    (claim3_auto_archive (ArchState.mk [sessJan1] []) ⟨⟨2024, 3, 5⟩, 0⟩ (by decide)).1⟩

end Kairos
